import Mathlib

/-!
# TwoLevelHashTable

A shallow embedding of `dbms/include/DB/Common/HashTable/TwoLevelHashTable.h`:
a hash table made of 256 elementary hash tables, the shard being chosen from
the hash value of the key.

* `size_t` values are natural numbers taken modulo `2 ^ 64`.
* Indexing the array `impls[NUM_BUCKETS]` outside `0 .. 255` is undefined
  behaviour in the source; here such an operation yields `none`.
* The elementary table (`HashTable.h`) is not part of the sources at hand; it
  is modelled from its interface as a duplicate-free sequence of cells.
-/

/-- Keys of the table (the template parameter `Key`, instantiated with unsigned integers). -/
abbrev Key := Nat

/-- Mapped values of the table. -/
abbrev Mapped := Nat

/-- The type `value_type` of the table: a key together with its mapped value. -/
abbrev value_type := Key × Mapped

/-- Modelled from the spec: the record stored in a slot (the class `Cell` of `HashTable.h`,
absent from the sources), a key with its mapped value. The mapped value is `none` as long
as the caller has not constructed it in the slot reserved by `emplace`. -/
structure Cell where
  key : Key
  mapped : Option Mapped
  deriving DecidableEq, Repr

/-- Modelled from the spec: `Cell::getKey`, the key of a value. -/
def Cell.getKey (x : value_type) : Key := x.1

/-- One item of a stream: a number written by a write function, or a single character
written by `writeChar`. -/
inductive Tok where
  | num (n : Nat)
  | chr (c : Char)
  deriving DecidableEq, Repr

/-- Contents of a `WriteBuffer`, or what is left to consume in a `ReadBuffer`. -/
abbrev Buffer := List Tok

/-- Modelled from the spec: the elementary table `HashTable<Key, Cell, Hash, Grower, Allocator>`
(the type `Impl`; `HashTable.h` is absent from the sources). It holds its live cells in
iteration order; a position inside it is a number `0 .. size`, the last one being `end()`. -/
structure Impl where
  cells : List Cell
  deriving DecidableEq, Repr

namespace Impl

/-- Modelled from the spec: `HashTable::size`. -/
def size (s : Impl) : Nat := s.cells.length

/-- The keys held by an elementary table, in iteration order. -/
def keys (s : Impl) : List Key := s.cells.map (fun c => c.key)

/-- Modelled from the spec: `HashTable::empty`, true when the table holds no cell. -/
def empty (s : Impl) : Bool := s.cells.isEmpty

/-- Modelled from the spec: `HashTable::begin`, the position of the first live cell
(equal to `end()` when there is none). -/
def begin (_s : Impl) : Nat := 0

/-- Modelled from the spec: `HashTable::end`, the position past the last live cell. -/
def end_ (s : Impl) : Nat := s.cells.length

/-- Modelled from the spec: `HashTable::find`, the position of the cell holding `x`,
or `end()` when no cell holds it. -/
def find (s : Impl) (x : Key) : Nat := s.cells.findIdx (fun c => c.key == x)

/-- Modelled from the spec: `HashTable::emplace(x, it, inserted)`. When `x` is held already,
the table is unchanged and the result is the position of its cell and `false`; otherwise a
cell for `x` is added, its mapped value not constructed, and the result is its position
and `true`. -/
def emplace (s : Impl) (x : Key) : Impl × Nat × Bool :=
  if s.find x = s.end_ then (⟨s.cells ++ [⟨x, none⟩]⟩, s.cells.length, true)
  else (s, s.find x, false)

/-- Modelled from the spec: how a mapped value is written, `0` standing for a value that
was never constructed. -/
def encodeMapped : Option Mapped → Nat
  | none => 0
  | some v => v + 1

/-- Modelled from the spec: the inverse of `encodeMapped`. -/
def decodeMapped : Nat → Option Mapped
  | 0 => none
  | v + 1 => some v

/-- Modelled from the spec: `HashTable::write`, the number of cells followed by the cells. -/
def write (s : Impl) : Buffer :=
  Tok.num s.size :: s.cells.flatMap (fun c => [Tok.num c.key, Tok.num (encodeMapped c.mapped)])

/-- Modelled from the spec: `HashTable::writeText`, the number of cells, then each cell
after a comma, key and mapped value separated by a comma. -/
def writeText (s : Impl) : Buffer :=
  Tok.num s.size :: s.cells.flatMap
    (fun c => [Tok.chr ',', Tok.num c.key, Tok.chr ',', Tok.num (encodeMapped c.mapped)])

/-- Modelled from the spec: `HashTable::insert` of a cell read from a stream; a key held
already is left alone. -/
def insertCell (s : Impl) (c : Cell) : Impl :=
  if s.find c.key = s.end_ then ⟨s.cells ++ [c]⟩ else s

/-- Modelled from the spec: the loop of `HashTable::read`, reading `n` cells into `s`.
A failure carries the cells read so far. -/
def readCells : Nat → Impl → Buffer → Except Impl (Impl × Buffer)
  | 0, s, rb => .ok (s, rb)
  | n + 1, s, Tok.num k :: Tok.num m :: rb => readCells n (s.insertCell ⟨k, decodeMapped m⟩) rb
  | _ + 1, s, _ => .error s

/-- Modelled from the spec: `HashTable::read`. The former contents are dropped, then the
number of cells and the cells are read. -/
def read (_s : Impl) : Buffer → Except Impl (Impl × Buffer)
  | Tok.num n :: rb => readCells n ⟨[]⟩ rb
  | _ => .error ⟨[]⟩

/-- Modelled from the spec: the loop of `HashTable::readText`, each cell preceded by a comma. -/
def readTextCells : Nat → Impl → Buffer → Except Impl (Impl × Buffer)
  | 0, s, rb => .ok (s, rb)
  | n + 1, s, Tok.chr ',' :: Tok.num k :: Tok.chr ',' :: Tok.num m :: rb =>
      readTextCells n (s.insertCell ⟨k, decodeMapped m⟩) rb
  | _ + 1, s, _ => .error s

/-- Modelled from the spec: `HashTable::readText`. -/
def readText (_s : Impl) : Buffer → Except Impl (Impl × Buffer)
  | Tok.num n :: rb => readTextCells n ⟨[]⟩ rb
  | _ => .error ⟨[]⟩

end Impl

/-- The constant `NUM_BUCKETS`. -/
abbrev NUM_BUCKETS : Nat := 256

/-- Arithmetic of `size_t`: the value of a natural number in 64 bits. -/
def wrapSize (n : Nat) : Nat := n % 2 ^ 64

/-- Modelled from the spec: `Impl::iterator`, a pointer to a slot of the buffer of an
elementary table. The buffers of the 256 shards are disjoint, so the pointer is the index
of the shard owning the buffer together with the position inside that shard; two of them
are equal when both parts are. -/
structure ImplIterator where
  owner : Nat
  pos : Nat
  deriving DecidableEq, Repr

/-- The two-level table: the counter `m_size` and the array `impls` of 256 shards. -/
structure TwoLevelHashTable where
  m_size : Nat
  impls : Fin NUM_BUCKETS → Impl

namespace TwoLevelHashTable

/-- The class `iterator` (and `const_iterator`): the shard index `bucket` and the position
`current_it` inside a shard. The pointer `impls` to the shard array is the table the
functions below take as an argument. -/
structure iterator where
  bucket : Nat
  current_it : ImplIterator
  deriving DecidableEq, Repr

/-- The source operator `==` on iterators: only the positions inside the shards are compared. -/
def iterator.eq (a b : iterator) : Bool := a.current_it == b.current_it

/-- The source operator `!=` on iterators. -/
def iterator.ne (a b : iterator) : Bool := a.current_it != b.current_it

/-- A default-constructed table: `m_size = 0` and 256 empty shards. -/
def default : TwoLevelHashTable := ⟨0, fun _ => ⟨[]⟩⟩

/-- `hash(x)`: the functor `Hash` applied to the key, a `size_t`. -/
def hash (H : Key → Nat) (x : Key) : Nat := wrapSize (H x)

/-- `bucket(hash_value)`: `hash_value >> 24`. -/
def bucket (hash_value : Nat) : Nat := hash_value >>> 24

/-- The expression `impls[i].begin()`. -/
def implBegin (impls : Fin NUM_BUCKETS → Impl) (i : Fin NUM_BUCKETS) : ImplIterator :=
  ⟨i.val, (impls i).begin⟩

/-- The expression `impls[i].end()`. -/
def implEnd (impls : Fin NUM_BUCKETS → Impl) (i : Fin NUM_BUCKETS) : ImplIterator :=
  ⟨i.val, (impls i).end_⟩

/-- The loop `do ++bucket; while (bucket != NUM_BUCKETS && !impls[bucket].empty());` of
`beginOfNextNonEmptyBucket`, run for at most `fuel` rounds; the result is the final value
of `bucket`. Reading `impls[bucket]` with `bucket > NUM_BUCKETS` is out of bounds. -/
def scanBuckets (impls : Fin NUM_BUCKETS → Impl) : Nat → Nat → Option Nat
  | 0, _ => none
  | fuel + 1, bucket =>
      let bucket := wrapSize (bucket + 1)
      if bucket = NUM_BUCKETS then some bucket
      else if h : bucket < NUM_BUCKETS then
        if !(impls ⟨bucket, h⟩).empty then scanBuckets impls fuel bucket else some bucket
      else none

/-- `beginOfNextNonEmptyBucket(bucket)`: the position returned and the value left in the
reference argument `bucket`. -/
def beginOfNextNonEmptyBucket (impls : Fin NUM_BUCKETS → Impl) (bucket : Nat) :
    Option (ImplIterator × Nat) :=
  match scanBuckets impls (NUM_BUCKETS + 1) bucket with
  | none => none
  | some b =>
      if b = NUM_BUCKETS then some (implEnd impls ⟨NUM_BUCKETS - 1, by decide⟩, b)
      else if h : b < NUM_BUCKETS then some (implBegin impls ⟨b, h⟩, b)
      else none

/-- `begin()`: `size_t buck = 0; return beginOfNextNonEmptyBucket(buck);`. The iterator is
taken to carry the index left in `buck`; the comparison of iterators does not read it. -/
def begin (t : TwoLevelHashTable) : Option iterator :=
  (beginOfNextNonEmptyBucket t.impls 0).map (fun r => ⟨r.2, r.1⟩)

/-- `end()`: `impls[NUM_BUCKETS - 1].end()`. The iterator is taken to carry the index of
the last shard; the comparison of iterators does not read it. -/
def end_ (t : TwoLevelHashTable) : iterator :=
  ⟨NUM_BUCKETS - 1, implEnd t.impls ⟨NUM_BUCKETS - 1, by decide⟩⟩

/-- The expression `*it`: the cell under the iterator, `none` when the position is not
that of a live cell. -/
def deref (t : TwoLevelHashTable) (it : iterator) : Option Cell :=
  if h : it.current_it.owner < NUM_BUCKETS then
    (t.impls ⟨it.current_it.owner, h⟩).cells[it.current_it.pos]?
  else none

/-- Modelled from the spec: `++current_it` on a position inside a shard, defined on the
position of a live cell only. -/
def implNext (impls : Fin NUM_BUCKETS → Impl) (p : ImplIterator) : Option ImplIterator :=
  if h : p.owner < NUM_BUCKETS then
    if p.pos < (impls ⟨p.owner, h⟩).size then some ⟨p.owner, p.pos + 1⟩ else none
  else none

/-- The source operator `++` of the iterator. -/
def iterator.next (t : TwoLevelHashTable) (it : iterator) : Option iterator :=
  match implNext t.impls it.current_it with
  | none => none
  | some cur =>
      if h : it.bucket < NUM_BUCKETS then
        if cur = implEnd t.impls ⟨it.bucket, h⟩ then
          (beginOfNextNonEmptyBucket t.impls it.bucket).map (fun r => ⟨r.2, r.1⟩)
        else some ⟨it.bucket, cur⟩
      else none

/-- The loop `for (; it != end(); ++it)` starting at `it`, collecting the cells under the
iterator, for at most `fuel` rounds. -/
def traverseFrom (t : TwoLevelHashTable) : Nat → iterator → Option (List Cell)
  | 0, _ => none
  | fuel + 1, it =>
      if it.ne t.end_ then
        match deref t it, it.next t with
        | some c, some it' => (traverseFrom t fuel it').map (fun cs => c :: cs)
        | _, _ => none
      else some []

/-- A full traversal `for (it = begin(); it != end(); ++it)`. -/
def traverse (t : TwoLevelHashTable) (fuel : Nat) : Option (List Cell) :=
  match t.begin with
  | none => none
  | some it => traverseFrom t fuel it

/-- `emplace(x, it, inserted, hash_value)`: the new table, the iterator `it` and the
flag `inserted`. -/
def emplaceWithHash (t : TwoLevelHashTable) (x : Key) (hash_value : Nat) :
    Option (TwoLevelHashTable × iterator × Bool) :=
  let buck := bucket hash_value
  if h : buck < NUM_BUCKETS then
    let r := (t.impls ⟨buck, h⟩).emplace x
    some (⟨if r.2.2 then wrapSize (t.m_size + 1) else t.m_size,
            Function.update t.impls ⟨buck, h⟩ r.1⟩,
          ⟨buck, ⟨buck, r.2.1⟩⟩, r.2.2)
  else none

/-- `emplace(x, it, inserted)`. -/
def emplace (H : Key → Nat) (t : TwoLevelHashTable) (x : Key) :
    Option (TwoLevelHashTable × iterator × Bool) :=
  t.emplaceWithHash x (hash H x)

/-- `insert(x)`: the new table and the pair returned. -/
def insert (H : Key → Nat) (t : TwoLevelHashTable) (x : value_type) :
    Option (TwoLevelHashTable × iterator × Bool) :=
  t.emplaceWithHash (Cell.getKey x) (hash H (Cell.getKey x))

/-- `find(x)`. -/
def find (H : Key → Nat) (t : TwoLevelHashTable) (x : Key) : Option iterator :=
  let buck := bucket (hash H x)
  if h : buck < NUM_BUCKETS then
    let found := (t.impls ⟨buck, h⟩).find x
    some (if found ≠ (t.impls ⟨buck, h⟩).end_ then ⟨buck, ⟨buck, found⟩⟩ else t.end_)
  else none

/-- `size()`. -/
def size (t : TwoLevelHashTable) : Nat := t.m_size

/-- `empty()`. -/
def empty (t : TwoLevelHashTable) : Bool := 0 == t.m_size

/-- The loop of `write` from index `i` on, for `n` shards. -/
def writeFrom (impls : Fin NUM_BUCKETS → Impl) : Nat → Nat → Buffer
  | 0, _ => []
  | n + 1, i =>
      (if h : i < NUM_BUCKETS then (impls ⟨i, h⟩).write else []) ++ writeFrom impls n (i + 1)

/-- `write(wb)`: what is appended to the buffer. -/
def write (t : TwoLevelHashTable) : Buffer := writeFrom t.impls NUM_BUCKETS 0

/-- The loop of `writeText` from index `i` on, for `n` shards. -/
def writeTextFrom (impls : Fin NUM_BUCKETS → Impl) : Nat → Nat → Buffer
  | 0, _ => []
  | n + 1, i =>
      (if i ≠ 0 then [Tok.chr ','] else []) ++
        (if h : i < NUM_BUCKETS then (impls ⟨i, h⟩).writeText else []) ++
        writeTextFrom impls n (i + 1)

/-- `writeText(wb)`: what is appended to the buffer. -/
def writeText (t : TwoLevelHashTable) : Buffer := writeTextFrom t.impls NUM_BUCKETS 0

/-- The loop of `read` from index `i` on, for `n` shards. A failure carries the shards as
they are when the exception leaves the loop. -/
def readFrom : Nat → Nat → (Fin NUM_BUCKETS → Impl) → Buffer →
    Except (Fin NUM_BUCKETS → Impl) ((Fin NUM_BUCKETS → Impl) × Buffer)
  | 0, _, impls, rb => .ok (impls, rb)
  | n + 1, i, impls, rb =>
      if h : i < NUM_BUCKETS then
        match (impls ⟨i, h⟩).read rb with
        | .ok (s, rb') => readFrom n (i + 1) (Function.update impls ⟨i, h⟩ s) rb'
        | .error s => .error (Function.update impls ⟨i, h⟩ s)
      else .error impls

/-- `read(rb)`: the table and the rest of the buffer, or the table left by a failure.
The counter `m_size` is not assigned. -/
def read (t : TwoLevelHashTable) (rb : Buffer) :
    Except TwoLevelHashTable (TwoLevelHashTable × Buffer) :=
  match readFrom NUM_BUCKETS 0 t.impls rb with
  | .ok (impls, rb') => .ok (⟨t.m_size, impls⟩, rb')
  | .error impls => .error ⟨t.m_size, impls⟩

/-- `assertString(",", rb)`: the rest of the buffer after the comma, or a failure. -/
def assertComma : Buffer → Option Buffer
  | Tok.chr ',' :: rb => some rb
  | _ => none

/-- The loop of `readText` from index `i` on, for `n` shards. -/
def readTextFrom : Nat → Nat → (Fin NUM_BUCKETS → Impl) → Buffer →
    Except (Fin NUM_BUCKETS → Impl) ((Fin NUM_BUCKETS → Impl) × Buffer)
  | 0, _, impls, rb => .ok (impls, rb)
  | n + 1, i, impls, rb =>
      if h : i < NUM_BUCKETS then
        match (if i ≠ 0 then assertComma rb else some rb) with
        | none => .error impls
        | some rb1 =>
            match (impls ⟨i, h⟩).readText rb1 with
            | .ok (s, rb') => readTextFrom n (i + 1) (Function.update impls ⟨i, h⟩ s) rb'
            | .error s => .error (Function.update impls ⟨i, h⟩ s)
      else .error impls

/-- `readText(rb)`. The counter `m_size` is not assigned. -/
def readText (t : TwoLevelHashTable) (rb : Buffer) :
    Except TwoLevelHashTable (TwoLevelHashTable × Buffer) :=
  match readTextFrom NUM_BUCKETS 0 t.impls rb with
  | .ok (impls, rb') => .ok (⟨t.m_size, impls⟩, rb')
  | .error impls => .error ⟨t.m_size, impls⟩

/-- The loop of `getBufferSizeInBytes` from index `i` on, for `n` shards; `implBytes` is
`Impl::getBufferSizeInBytes`. -/
def bufferSizeFrom (implBytes : Impl → Nat) (impls : Fin NUM_BUCKETS → Impl) :
    Nat → Nat → Nat → Nat
  | 0, _, res => res
  | n + 1, i, res =>
      bufferSizeFrom implBytes impls n (i + 1)
        (wrapSize (res + (if h : i < NUM_BUCKETS then implBytes (impls ⟨i, h⟩) else 0)))

/-- `getBufferSizeInBytes()`. The local `res` is declared without an initial value;
`res0` is the value it happens to hold. -/
def getBufferSizeInBytes (implBytes : Impl → Nat) (res0 : Nat) (t : TwoLevelHashTable) : Nat :=
  bufferSizeFrom implBytes t.impls NUM_BUCKETS 0 res0

/-- The sum of the entry counts of the 256 shards. -/
def shardTotal (t : TwoLevelHashTable) : Nat := ∑ i : Fin NUM_BUCKETS, (t.impls i).size

/-- The key `k` is held by the shard that the hash value of `k` selects. -/
def contains (H : Key → Nat) (t : TwoLevelHashTable) (k : Key) : Prop :=
  ∃ h : bucket (hash H k) < NUM_BUCKETS, k ∈ (t.impls ⟨bucket (hash H k), h⟩).keys

/-- The table holding the key 5 alone, in shard 0. -/
def singleKeyTable : TwoLevelHashTable := ⟨1, Function.update default.impls 0 ⟨[⟨5, none⟩]⟩⟩

/-- The table holding the key 1 in shard 1 and the key 3 in shard 3. -/
def twoKeyTable : TwoLevelHashTable :=
  ⟨2, Function.update (Function.update default.impls 1 ⟨[⟨1, none⟩]⟩) 3 ⟨[⟨3, none⟩]⟩⟩

/-- One call of a public inserting operation. -/
inductive Op where
  | insert (x : value_type)
  | emplace (x : Key)
  | emplaceWithHash (x : Key) (hash_value : Nat)
  deriving DecidableEq, Repr

/-- The key an operation inserts. -/
def Op.key : Op → Key
  | .insert x => Cell.getKey x
  | .emplace x => x
  | .emplaceWithHash x _ => x

/-- The hash value an operation selects the shard with. -/
def Op.hashValue (H : Key → Nat) : Op → Nat
  | .insert x => hash H (Cell.getKey x)
  | .emplace x => hash H x
  | .emplaceWithHash _ hash_value => hash_value

/-- The effect of one operation. -/
def apply (H : Key → Nat) (t : TwoLevelHashTable) : Op → Option (TwoLevelHashTable × iterator × Bool)
  | .insert x => t.insert H x
  | .emplace x => t.emplace H x
  | .emplaceWithHash x hash_value => t.emplaceWithHash x hash_value

/-- The table after a sequence of operations, `none` as soon as one of them is undefined. -/
def run (H : Key → Nat) : List Op → TwoLevelHashTable → Option TwoLevelHashTable
  | [], t => some t
  | op :: ops, t =>
      match apply H t op with
      | none => none
      | some r => run H ops r.1

end TwoLevelHashTable

/-! ## The elementary table -/

namespace Impl

theorem mem_keys (s : Impl) (x : Key) : x ∈ s.keys ↔ ∃ c ∈ s.cells, c.key = x := by
  simp [keys]

theorem find_le (s : Impl) (x : Key) : s.find x ≤ s.cells.length :=
  List.findIdx_le_length _

theorem find_eq_end_iff (s : Impl) (x : Key) : s.find x = s.end_ ↔ x ∉ s.keys := by
  simp [find, end_, keys]

theorem find_lt_iff (s : Impl) (x : Key) : s.find x < s.cells.length ↔ x ∈ s.keys := by
  simp [find, keys]

theorem key_at_find (s : Impl) (x : Key) (h : x ∈ s.keys) :
    (s.cells[s.find x]?).map (fun c => c.key) = some x := by
  have hlt : s.find x < s.cells.length := (s.find_lt_iff x).2 h
  have hp := @List.findIdx_getElem _ (fun c : Cell => c.key == x) s.cells hlt
  rw [List.getElem?_eq_getElem hlt]
  simpa [find] using hp

theorem emplace_of_mem (s : Impl) (x : Key) (h : x ∈ s.keys) :
    s.emplace x = (s, s.find x, false) := by
  have : s.find x ≠ s.end_ := fun e => (s.find_eq_end_iff x).1 e h
  simp [emplace, this]

theorem emplace_of_not_mem (s : Impl) (x : Key) (h : x ∉ s.keys) :
    s.emplace x = (⟨s.cells ++ [⟨x, none⟩]⟩, s.cells.length, true) := by
  have : s.find x = s.end_ := (s.find_eq_end_iff x).2 h
  simp [emplace, this]

theorem emplace_inserted_iff (s : Impl) (x : Key) : (s.emplace x).2.2 = true ↔ x ∉ s.keys := by
  by_cases h : x ∈ s.keys
  · simp [emplace_of_mem s x h, h]
  · simp [emplace_of_not_mem s x h, h]

theorem keys_emplace (s : Impl) (x : Key) :
    (s.emplace x).1.keys = if x ∈ s.keys then s.keys else s.keys ++ [x] := by
  by_cases h : x ∈ s.keys
  · simp [emplace_of_mem s x h, h]
  · rw [emplace_of_not_mem s x h, if_neg h]
    simp [keys]

theorem mem_keys_emplace (s : Impl) (x k : Key) :
    k ∈ (s.emplace x).1.keys ↔ k ∈ s.keys ∨ k = x := by
  rw [keys_emplace]
  by_cases h : x ∈ s.keys
  · simp only [h, if_true]
    constructor
    · exact Or.inl
    · rintro (h1 | rfl)
      · exact h1
      · exact h
  · simp [h]

theorem size_emplace (s : Impl) (x : Key) :
    (s.emplace x).1.size = s.size + (if x ∈ s.keys then 0 else 1) := by
  by_cases h : x ∈ s.keys
  · simp [emplace_of_mem s x h, h]
  · simp [emplace_of_not_mem s x h, h, size]

theorem find_emplace_self (s : Impl) (x : Key) :
    (s.emplace x).1.find x = (s.emplace x).2.1 ∧ (s.emplace x).2.1 < (s.emplace x).1.cells.length := by
  by_cases h : x ∈ s.keys
  · simp [emplace_of_mem s x h, (s.find_lt_iff x).2 h]
  · have hne : ¬ s.find x < s.cells.length := fun hlt => h ((s.find_lt_iff x).1 hlt)
    have hne' : ¬ List.findIdx (fun c : Cell => c.key == x) s.cells < s.cells.length := hne
    simp [emplace_of_not_mem s x h, find, List.findIdx_append, hne', List.findIdx_cons]

theorem find_emplace_of_mem (s : Impl) (x k : Key) (h : k ∈ s.keys) :
    (s.emplace x).1.find k = s.find k := by
  by_cases hx : x ∈ s.keys
  · simp [emplace_of_mem s x hx]
  · have hlt : List.findIdx (fun c : Cell => c.key == k) s.cells < s.cells.length :=
      (s.find_lt_iff k).2 h
    simp [emplace_of_not_mem s x hx, find, List.findIdx_append, hlt]

theorem cells_emplace_prefix (s : Impl) (x : Key) : s.cells <+: (s.emplace x).1.cells := by
  by_cases h : x ∈ s.keys
  · simp [emplace_of_mem s x h]
  · simp [emplace_of_not_mem s x h]

theorem emplace_emplace (s : Impl) (x : Key) :
    (s.emplace x).1.emplace x = ((s.emplace x).1, (s.emplace x).2.1, false) := by
  have hm : x ∈ (s.emplace x).1.keys := (mem_keys_emplace s x x).2 (Or.inr rfl)
  rw [emplace_of_mem _ x hm, (find_emplace_self s x).1]

end Impl

/-! ## Routing of keys to shards -/

namespace TwoLevelHashTable

theorem bucket_lt_of_lt (h : Nat) (hh : h < 2 ^ 32) :
    bucket h < NUM_BUCKETS ∧ bucket h = (h >>> 24) &&& 0xFF := by
  have h1 : bucket h < 256 := by
    unfold bucket
    rw [Nat.shiftRight_eq_div_pow]
    omega
  refine ⟨h1, ?_⟩
  have : (h >>> 24) &&& 0xFF = (h >>> 24) % 2 ^ 8 := Nat.and_pow_two_sub_one_eq_mod _ 8
  rw [this]
  unfold bucket at h1 ⊢
  omega

theorem emplaceWithHash_some (t : TwoLevelHashTable) (x : Key) (hv : Nat)
    (hb : bucket hv < NUM_BUCKETS) :
    t.emplaceWithHash x hv =
      some (⟨if ((t.impls ⟨bucket hv, hb⟩).emplace x).2.2 then wrapSize (t.m_size + 1)
              else t.m_size,
             Function.update t.impls ⟨bucket hv, hb⟩ ((t.impls ⟨bucket hv, hb⟩).emplace x).1⟩,
            ⟨bucket hv, ⟨bucket hv, ((t.impls ⟨bucket hv, hb⟩).emplace x).2.1⟩⟩,
            ((t.impls ⟨bucket hv, hb⟩).emplace x).2.2) := by
  simp [emplaceWithHash, hb]

theorem emplaceWithHash_none (t : TwoLevelHashTable) (x : Key) (hv : Nat)
    (hb : ¬ bucket hv < NUM_BUCKETS) : t.emplaceWithHash x hv = none := by
  simp [emplaceWithHash, hb]

theorem emplaceWithHash_inv (t t' : TwoLevelHashTable) (x : Key) (hv : Nat) (it : iterator)
    (ins : Bool) (h : t.emplaceWithHash x hv = some (t', it, ins)) :
    ∃ hb : bucket hv < NUM_BUCKETS,
      t'.impls = Function.update t.impls ⟨bucket hv, hb⟩
        ((t.impls ⟨bucket hv, hb⟩).emplace x).1 ∧
      t'.m_size = (if ins then wrapSize (t.m_size + 1) else t.m_size) ∧
      it = ⟨bucket hv, ⟨bucket hv, ((t.impls ⟨bucket hv, hb⟩).emplace x).2.1⟩⟩ ∧
      ins = ((t.impls ⟨bucket hv, hb⟩).emplace x).2.2 := by
  by_cases hb : bucket hv < NUM_BUCKETS
  · rw [emplaceWithHash_some t x hv hb] at h
    simp only [Option.some.injEq, Prod.mk.injEq] at h
    obtain ⟨h1, h2, h3⟩ := h
    refine ⟨hb, ?_, ?_, h2.symm, h3.symm⟩
    · rw [← h1]
    · rw [← h1, ← h3]
  · rw [emplaceWithHash_none t x hv hb] at h
    exact absurd h (by simp)

theorem apply_eq (H : Key → Nat) (t : TwoLevelHashTable) (op : Op) :
    apply H t op = t.emplaceWithHash op.key (op.hashValue H) := by
  cases op <;> rfl

theorem find_of_contains (H : Key → Nat) (t : TwoLevelHashTable) (k : Key)
    (h : contains H t k) :
    ∃ it, t.find H k = some it ∧ it.ne t.end_ = true ∧ it.bucket = bucket (hash H k) ∧
      it.current_it.owner = bucket (hash H k) ∧
      (deref t it).map (fun c => c.key) = some k := by
  obtain ⟨hb, hk⟩ := h
  have hlt := ((t.impls ⟨bucket (hash H k), hb⟩).find_lt_iff k).2 hk
  have hne : (t.impls ⟨bucket (hash H k), hb⟩).find k ≠ (t.impls ⟨bucket (hash H k), hb⟩).end_ := by
    unfold Impl.end_
    omega
  refine ⟨⟨bucket (hash H k), ⟨bucket (hash H k), (t.impls ⟨bucket (hash H k), hb⟩).find k⟩⟩,
    ?_, ?_, rfl, rfl, ?_⟩
  · simp [find, hb, hne]
  · simp only [iterator.ne, end_, implEnd, bne_iff_ne, ne_eq, ImplIterator.mk.injEq, not_and]
    intro h255
    have hfin : (⟨bucket (hash H k), hb⟩ : Fin NUM_BUCKETS) = ⟨NUM_BUCKETS - 1, by decide⟩ :=
      Fin.ext h255
    have key : ∀ i j : Fin NUM_BUCKETS, i = j →
        (t.impls i).find k < (t.impls i).cells.length → (t.impls i).find k ≠ (t.impls j).end_ := by
      rintro i j rfl hij
      unfold Impl.end_
      omega
    exact key _ _ hfin hlt
  · simp only [deref, hb, dite_true]
    exact (t.impls ⟨bucket (hash H k), hb⟩).key_at_find k hk

theorem find_of_not_contains (H : Key → Nat) (t : TwoLevelHashTable) (k : Key)
    (hb : bucket (hash H k) < NUM_BUCKETS) (h : ¬ contains H t k) :
    t.find H k = some t.end_ := by
  have hk : k ∉ (t.impls ⟨bucket (hash H k), hb⟩).keys := fun hk => h ⟨hb, hk⟩
  have := ((t.impls ⟨bucket (hash H k), hb⟩).find_eq_end_iff k).2 hk
  simp [find, hb, this]

theorem contains_emplaceWithHash (H : Key → Nat) (t t' : TwoLevelHashTable) (x : Key) (hv : Nat)
    (it : iterator) (ins : Bool) (h : t.emplaceWithHash x hv = some (t', it, ins))
    (k : Key) :
    contains H t' k ↔ contains H t k ∨ (k = x ∧ bucket (hash H k) = bucket hv) := by
  obtain ⟨hb, himpls, -, -, -⟩ := emplaceWithHash_inv t t' x hv it ins h
  unfold contains
  rw [himpls]
  constructor
  · rintro ⟨hk, hmem⟩
    by_cases hbk : bucket (hash H k) = bucket hv
    · have hfin : (⟨bucket (hash H k), hk⟩ : Fin NUM_BUCKETS) = ⟨bucket hv, hb⟩ := Fin.ext hbk
      rw [hfin, Function.update_same, Impl.mem_keys_emplace] at hmem
      rcases hmem with hmem | hmem
      · left
        exact ⟨hk, by rw [hfin]; exact hmem⟩
      · right
        exact ⟨hmem, hbk⟩
    · have hfin : (⟨bucket (hash H k), hk⟩ : Fin NUM_BUCKETS) ≠ ⟨bucket hv, hb⟩ :=
        fun e => hbk (Fin.mk.inj e)
      rw [Function.update_noteq hfin] at hmem
      exact Or.inl ⟨hk, hmem⟩
  · rintro (⟨hk, hmem⟩ | ⟨rfl, hbk⟩)
    · refine ⟨hk, ?_⟩
      by_cases hbk : bucket (hash H k) = bucket hv
      · have hfin : (⟨bucket (hash H k), hk⟩ : Fin NUM_BUCKETS) = ⟨bucket hv, hb⟩ := Fin.ext hbk
        rw [hfin, Function.update_same, Impl.mem_keys_emplace]
        left
        rw [← hfin]
        exact hmem
      · have hfin : (⟨bucket (hash H k), hk⟩ : Fin NUM_BUCKETS) ≠ ⟨bucket hv, hb⟩ :=
          fun e => hbk (Fin.mk.inj e)
        rw [Function.update_noteq hfin]
        exact hmem
    · have hk : bucket (hash H k) < NUM_BUCKETS := hbk ▸ hb
      refine ⟨hk, ?_⟩
      have hfin : (⟨bucket (hash H k), hk⟩ : Fin NUM_BUCKETS) = ⟨bucket hv, hb⟩ := Fin.ext hbk
      rw [hfin, Function.update_same, Impl.mem_keys_emplace]
      exact Or.inr rfl

theorem contains_run (H : Key → Nat) (ops : List Op) (t t' : TwoLevelHashTable)
    (h : run H ops t = some t') (k : Key) (hk : contains H t k) : contains H t' k := by
  induction ops generalizing t with
  | nil =>
      simp only [run, Option.some.injEq] at h
      exact h ▸ hk
  | cons op ops ih =>
      simp only [run] at h
      cases hop : apply H t op with
      | none => simp [hop] at h
      | some r =>
          obtain ⟨t1, it, ins⟩ := r
          simp only [hop] at h
          rw [apply_eq] at hop
          exact ih t1 h ((contains_emplaceWithHash H t t1 _ _ it ins hop k).2 (Or.inl hk))

end TwoLevelHashTable

/-! ## Lookup after insertion -/

namespace TwoLevelHashTable

theorem run_some (H : Key → Nat) (ops : List Op) (t : TwoLevelHashTable)
    (h : ∀ op ∈ ops, bucket (op.hashValue H) < NUM_BUCKETS) : ∃ t', run H ops t = some t' := by
  induction ops generalizing t with
  | nil => exact ⟨t, rfl⟩
  | cons op ops ih =>
      have hb := h op (List.mem_cons_self _ _)
      simp only [run, apply_eq, emplaceWithHash_some t _ _ hb]
      exact ih _ (fun o ho => h o (List.mem_cons_of_mem _ ho))

theorem contains_of_run (H : Key → Nat) (ops : List Op) (t t' : TwoLevelHashTable)
    (h : run H ops t = some t') (op : Op) (hop : op ∈ ops)
    (hh : bucket (op.hashValue H) = bucket (hash H op.key)) : contains H t' op.key := by
  induction ops generalizing t with
  | nil => simp at hop
  | cons o ops ih =>
      simp only [run] at h
      cases ho : apply H t o with
      | none => simp [ho] at h
      | some r =>
          obtain ⟨t1, it, ins⟩ := r
          simp only [ho] at h
          rcases List.mem_cons.1 hop with rfl | hmem
          · rw [apply_eq] at ho
            exact contains_run H ops t1 t' h _
              ((contains_emplaceWithHash H t t1 _ _ it ins ho _).2 (Or.inr ⟨rfl, hh.symm⟩))
          · exact ih t1 h hmem

/-- When every shard index selected is below 256, every key inserted by `insert` or
`emplace(key)` into a default-constructed table is found again. -/
theorem find_of_run (H : Key → Nat) (ops : List Op)
    (hrange : ∀ op ∈ ops, op.hashValue H = hash H op.key ∧ bucket (hash H op.key) < NUM_BUCKETS)
    (op : Op) (hop : op ∈ ops) :
    ∃ t it, run H ops default = some t ∧ t.find H op.key = some it ∧ it.ne t.end_ = true ∧
      (deref t it).map (fun c => c.key) = some op.key := by
  obtain ⟨t, ht⟩ := run_some H ops default
    (fun o ho => by rw [(hrange o ho).1]; exact (hrange o ho).2)
  have hc := contains_of_run H ops default t ht op hop (by rw [(hrange op hop).1])
  obtain ⟨it, h1, h2, -, -, h3⟩ := find_of_contains H t op.key hc
  exact ⟨t, it, ht, h1, h2, h3⟩

/-- C1, at a hash function with a value of `2 ^ 32`: `bucket` yields 256, so `insert`,
`emplace` and `find` of key 5 index `impls` past its last element and nothing is found. -/
theorem find_after_insert_index_overflow :
    bucket (hash (fun _ => 4294967296) 5) = 256 ∧
      (default.insert (fun _ => 4294967296) (5, 0)).isNone = true ∧
      (default.emplace (fun _ => 4294967296) 5).isNone = true ∧
      (default.find (fun _ => 4294967296) 5).isNone = true := by
  decide

end TwoLevelHashTable

/-! ## The counter `m_size` -/

namespace TwoLevelHashTable

theorem inserted_iff (H : Key → Nat) (t t' : TwoLevelHashTable) (x : Key) (hv : Nat)
    (it : iterator) (ins : Bool) (h : t.emplaceWithHash x hv = some (t', it, ins))
    (hh : bucket hv = bucket (hash H x)) : ins = true ↔ ¬ contains H t x := by
  obtain ⟨hb, -, -, -, hins⟩ := emplaceWithHash_inv t t' x hv it ins h
  rw [hins, Impl.emplace_inserted_iff]
  have hfin : ∀ hk : bucket (hash H x) < NUM_BUCKETS,
      (⟨bucket (hash H x), hk⟩ : Fin NUM_BUCKETS) = ⟨bucket hv, hb⟩ := fun _ => Fin.ext hh.symm
  constructor
  · rintro hn ⟨hk, hmem⟩
    rw [hfin hk] at hmem
    exact hn hmem
  · intro hn hmem
    exact hn ⟨hh ▸ hb, by rw [hfin]; exact hmem⟩

theorem size_run (H : Key → Nat) (ops : List Op) (t : TwoLevelHashTable) (S : Finset Key)
    (hS : ∀ k, contains H t k ↔ k ∈ S) (hsize : t.m_size = S.card)
    (hrange : ∀ op ∈ ops, bucket (op.hashValue H) = bucket (hash H op.key) ∧
      bucket (hash H op.key) < NUM_BUCKETS)
    (hcard : (S ∪ (ops.map Op.key).toFinset).card < 2 ^ 64) :
    ∃ t', run H ops t = some t' ∧ t'.m_size = (S ∪ (ops.map Op.key).toFinset).card := by
  induction ops generalizing t S with
  | nil => exact ⟨t, rfl, by simpa using hsize⟩
  | cons op ops ih =>
      obtain ⟨hh, hk⟩ := hrange op (List.mem_cons_self _ _)
      have hb : bucket (op.hashValue H) < NUM_BUCKETS := hh ▸ hk
      have hstep := emplaceWithHash_some t op.key (op.hashValue H) hb
      simp only [run, apply_eq, hstep]
      have hins := inserted_iff H t _ op.key _ _ _ hstep hh
      have hcont := contains_emplaceWithHash H t _ op.key _ _ _ hstep
      have hunion : S ∪ (List.map Op.key (op :: ops)).toFinset =
          Insert.insert op.key S ∪ (List.map Op.key ops).toFinset := by
        ext k
        simp only [List.map_cons, List.toFinset_cons, Finset.mem_union, Finset.mem_insert]
        tauto
      rw [hunion] at hcard ⊢
      apply ih _ (Insert.insert op.key S)
      · intro k
        rw [hcont k, hS k, Finset.mem_insert]
        constructor
        · rintro (h1 | ⟨h1, -⟩)
          · exact Or.inr h1
          · exact Or.inl h1
        · rintro (h1 | h1)
          · exact Or.inr ⟨h1, by rw [h1, hh]⟩
          · exact Or.inl h1
      · have hle : (Insert.insert op.key S).card ≤
            (Insert.insert op.key S ∪ (List.map Op.key ops).toFinset).card :=
          Finset.card_le_card Finset.subset_union_left
        by_cases hmem : op.key ∈ S
        · have hfalse : ((t.impls ⟨bucket (op.hashValue H), hb⟩).emplace op.key).2.2 = false := by
            cases hc : ((t.impls ⟨bucket (op.hashValue H), hb⟩).emplace op.key).2.2
            · rfl
            · exact absurd ((hS _).2 hmem) (hins.1 hc)
          simp only [hfalse, Bool.false_eq_true, if_false]
          rw [Finset.insert_eq_of_mem hmem]
          exact hsize
        · have htrue : ((t.impls ⟨bucket (op.hashValue H), hb⟩).emplace op.key).2.2 = true :=
            hins.2 (fun hc => hmem ((hS _).1 hc))
          simp only [htrue, if_true]
          rw [Finset.card_insert_of_not_mem hmem] at hle ⊢
          rw [hsize]
          unfold wrapSize
          exact Nat.mod_eq_of_lt (by omega)
      · exact fun o ho => hrange o (List.mem_cons_of_mem _ ho)
      · exact hcard

theorem not_contains_default (H : Key → Nat) (k : Key) : ¬ contains H default k := by
  rintro ⟨_, hmem⟩
  simp [default, Impl.keys] at hmem

/-- C2, the claim at two calls of `emplace(key, hashValue)` for the key 5 with the hash values
0 and `2 ^ 24`: both report `inserted = true` and `size()` is 2, with one distinct key. -/
theorem size_not_distinct_keys :
    ∃ r1 r2, default.emplaceWithHash 5 0 = some r1 ∧ r1.1.emplaceWithHash 5 16777216 = some r2 ∧
      r1.2.2 = true ∧ r2.2.2 = true ∧ r2.1.size = 2 ∧
      r2.1.size ≠ (List.map Op.key
        [Op.emplaceWithHash 5 0, Op.emplaceWithHash 5 16777216]).toFinset.card :=
  ⟨_, _, rfl, rfl, by decide⟩

/-- C2, amended: for every sequence of calls of `insert`, `emplace(key)` and
`emplace(key, hashValue)` on a default-constructed table in which every hash value passed
selects the shard that the hash of the key selects, this shard index being below 256, and
which has fewer than `2 ^ 64` distinct keys, the calls are defined and `size()` is the number
of distinct keys; and a single call on any table whose counter is not the largest `size_t`
raises `size()` by one when it reports `inserted = true` and leaves it as it is otherwise. -/
theorem size_eq_distinct_keys (H : Key → Nat) (ops : List Op)
    (hrange : ∀ op ∈ ops, bucket (op.hashValue H) = bucket (hash H op.key) ∧
      bucket (hash H op.key) < NUM_BUCKETS)
    (hcard : (ops.map Op.key).toFinset.card < 2 ^ 64) :
    (∃ t, run H ops default = some t ∧ t.size = (ops.map Op.key).toFinset.card) ∧
      ∀ (t t' : TwoLevelHashTable) (op : Op) (it : iterator) (ins : Bool),
        t.m_size + 1 < 2 ^ 64 → apply H t op = some (t', it, ins) →
          t'.size = t.size + (if ins then 1 else 0) := by
  constructor
  · have h := size_run H ops default ∅ (fun k => by simp [not_contains_default])
      rfl hrange (by simpa using hcard)
    simpa [size] using h
  · intro t t' op it ins hlt hop
    rw [apply_eq] at hop
    obtain ⟨-, -, hm, -, -⟩ := emplaceWithHash_inv t t' _ _ it ins hop
    cases ins
    · simpa [size] using hm
    · simp only [size, hm, if_true]
      exact Nat.mod_eq_of_lt hlt

theorem size_eq_distinct_keys_witness :
    (∀ op ∈ [Op.insert (5, 1), Op.emplace 200, Op.emplaceWithHash 5 83886080],
        bucket (op.hashValue (fun k => k * 16777216)) =
            bucket (hash (fun k => k * 16777216) op.key) ∧
          bucket (hash (fun k => k * 16777216) op.key) < NUM_BUCKETS) ∧
      (∃ t, run (fun k => k * 16777216)
          [Op.insert (5, 1), Op.emplace 200, Op.emplaceWithHash 5 83886080] default = some t ∧
        t.size = 2) :=
  ⟨by decide, (size_eq_distinct_keys (fun k => k * 16777216)
    [Op.insert (5, 1), Op.emplace 200, Op.emplaceWithHash 5 83886080]
    (by decide) (by decide)).1⟩

end TwoLevelHashTable

/-! ## Inserting a key twice -/

namespace TwoLevelHashTable

/-- When the first of two equal calls of `emplace(x, it, inserted, hash_value)` is defined,
the second returns the same iterator, reports `inserted = false` and changes nothing. -/
theorem emplaceWithHash_twice (t t1 : TwoLevelHashTable) (x : Key) (hv : Nat) (it1 : iterator)
    (ins1 : Bool) (h : t.emplaceWithHash x hv = some (t1, it1, ins1)) :
    t1.emplaceWithHash x hv = some (t1, it1, false) := by
  obtain ⟨hb, himpls, -, hit, -⟩ := emplaceWithHash_inv t t1 x hv it1 ins1 h
  have hs : t1.impls ⟨bucket hv, hb⟩ = ((t.impls ⟨bucket hv, hb⟩).emplace x).1 := by
    rw [himpls, Function.update_same]
  rw [emplaceWithHash_some t1 x hv hb, hs, Impl.emplace_emplace, ← hs, Function.update_eq_self,
    hit]
  simp

/-- C3, at the default-constructed table, the key 5 and a hash function with the value
`2 ^ 32`: the first call of `insert` (and of `emplace`) indexes `impls[256]`, so neither
call has a defined result. -/
theorem insert_twice_index_overflow :
    bucket (hash (fun _ => 4294967296) 5) = 256 ∧
      (default.insert (fun _ => 4294967296) (5, 0)).isNone = true ∧
      ((default.insert (fun _ => 4294967296) (5, 0)).bind
        (fun r => r.1.insert (fun _ => 4294967296) (5, 0))).isNone = true ∧
      ((default.emplace (fun _ => 4294967296) 5).bind
        (fun r => r.1.emplace (fun _ => 4294967296) 5)).isNone = true := by
  decide

/-! ## The shard index -/

/-- C4, at the hash value `2 ^ 32`: `bucket` returns 256, which is not below `NUM_BUCKETS`
and differs from `(h >> 24) & 0xFF`, and `emplace` with this hash value has no shard
to address. -/
theorem bucket_not_below_num_buckets :
    (4294967296 : Nat) < 2 ^ 64 ∧ bucket 4294967296 = 256 ∧
      ¬ bucket 4294967296 < NUM_BUCKETS ∧
      bucket 4294967296 ≠ (4294967296 >>> 24) &&& 0xFF ∧
      (default.emplaceWithHash 5 4294967296).isNone = true := by
  decide

/-- C5: for every hash function, table and value `x`, `insert(x)` and `emplace(key of x)` are
the same call, which is defined exactly when `find` of the key is; when it returns the
iterator `it1`, the key was put into the shard `bucket(hash(key))`, `it1` carries that index,
and after any further calls `find` of the key returns an iterator different from `end()` at
that key with the same shard index. For the hash `(k mod 65536) * 65536`, after inserting
5, 261 and 16777221, `find(5)` and `find(16777221)` report shard 0, `find(261)` reports
shard 1 and `size()` is 3. -/
theorem insert_find_same_shard (H : Key → Nat) (t t1 t2 : TwoLevelHashTable) (x : value_type)
    (it1 : iterator) (ins : Bool) (ops : List Op)
    (h1 : t.insert H x = some (t1, it1, ins)) (h2 : run H ops t1 = some t2) :
    t.emplace H x.1 = t.insert H x ∧
      ((t.insert H x).isSome ↔ (t.find H x.1).isSome) ∧
      it1.bucket = bucket (hash H x.1) ∧ it1.current_it.owner = bucket (hash H x.1) ∧
      (∃ hb : it1.bucket < NUM_BUCKETS, x.1 ∈ (t1.impls ⟨it1.bucket, hb⟩).keys) ∧
      t1.find H x.1 = some it1 ∧
      (∃ it2, t2.find H x.1 = some it2 ∧ it2.ne t2.end_ = true ∧ it2.bucket = it1.bucket ∧
        it2.current_it.owner = it1.bucket ∧ (deref t2 it2).map (fun c => c.key) = some x.1) ∧
      ∃ t3, run (fun k => k % 65536 * 65536)
          [Op.insert (5, 0), Op.insert (261, 0), Op.insert (16777221, 0)] default = some t3 ∧
        (t3.find (fun k => k % 65536 * 65536) 5).map (fun i => i.bucket) = some 0 ∧
        (t3.find (fun k => k % 65536 * 65536) 16777221).map (fun i => i.bucket) = some 0 ∧
        (t3.find (fun k => k % 65536 * 65536) 261).map (fun i => i.bucket) = some 1 ∧
        t3.size = 3 := by
  have h1' : t.emplaceWithHash x.1 (hash H x.1) = some (t1, it1, ins) := h1
  obtain ⟨hb, himpls, -, hit, -⟩ := emplaceWithHash_inv t t1 _ _ it1 ins h1'
  have hc1 : contains H t1 x.1 :=
    (contains_emplaceWithHash H t t1 _ _ it1 ins h1' x.1).2 (Or.inr ⟨rfl, rfl⟩)
  have hc2 : contains H t2 x.1 := contains_run H ops t1 t2 h2 _ hc1
  have hb1 : it1.bucket = bucket (hash H x.1) := by rw [hit]
  refine ⟨rfl, ?_, hb1, by rw [hit], ?_, ?_, ?_, ⟨_, rfl, by decide⟩⟩
  · simp [insert, Cell.getKey, emplaceWithHash, find]
  · obtain ⟨hk, hmem⟩ := hc1
    exact ⟨hb1 ▸ hk, by simpa [hb1] using hmem⟩
  · have hfind : (t1.impls ⟨bucket (hash H x.1), hb⟩).find x.1 =
        ((t.impls ⟨bucket (hash H x.1), hb⟩).emplace x.1).2.1 := by
      rw [himpls, Function.update_same]
      exact (Impl.find_emplace_self _ _).1
    have hlt : (t1.impls ⟨bucket (hash H x.1), hb⟩).find x.1 ≠
        (t1.impls ⟨bucket (hash H x.1), hb⟩).end_ := by
      have := ((t1.impls ⟨bucket (hash H x.1), hb⟩).find_lt_iff x.1).2 hc1.2
      unfold Impl.end_
      omega
    rw [hit, ← hfind]
    simp [find, hb, hlt]
  · obtain ⟨it2, e1, e2, e3, e4, e5⟩ := find_of_contains H t2 x.1 hc2
    exact ⟨it2, e1, e2, by rw [e3, hb1], by rw [e4, hb1], e5⟩

theorem insert_find_same_shard_witness :
    ∃ t1 it1 ins t2, default.insert (fun k => k % 65536 * 65536) (5, 0) = some (t1, it1, ins) ∧
      run (fun k => k % 65536 * 65536) [Op.insert (261, 0), Op.insert (16777221, 0)] t1 =
        some t2 ∧
      ∃ it2, t2.find (fun k => k % 65536 * 65536) 5 = some it2 ∧ it2.bucket = it1.bucket :=
  by
  obtain ⟨⟨t1, it1, ins⟩, h1⟩ :
      ∃ r, default.insert (fun k => k % 65536 * 65536) (5, 0) = some r := ⟨_, rfl⟩
  obtain ⟨t2, h2⟩ := run_some (fun k => k % 65536 * 65536)
    [Op.insert (261, 0), Op.insert (16777221, 0)] t1 (by decide)
  exact ⟨t1, it1, ins, t2, h1, h2,
    (insert_find_same_shard _ _ _ _ _ _ _ _ h1 h2).2.2.2.2.2.2.1.imp
      (fun _ h => ⟨h.1, h.2.2.1⟩)⟩

end TwoLevelHashTable

/-! ## The counter and the shard contents -/

namespace TwoLevelHashTable

theorem shardTotal_default : default.shardTotal = 0 := by
  simp [shardTotal, default, Impl.size]

/-- A defined call of `emplace(x, it, inserted, hash_value)` adds to the sum of the entry
counts of the shards what it reports in `inserted`. -/
theorem shardTotal_emplaceWithHash (t t' : TwoLevelHashTable) (x : Key) (hv : Nat)
    (it : iterator) (ins : Bool) (h : t.emplaceWithHash x hv = some (t', it, ins)) :
    t'.shardTotal = t.shardTotal + (if ins then 1 else 0) := by
  obtain ⟨hb, himpls, -, -, hins⟩ := emplaceWithHash_inv t t' x hv it ins h
  have hsum : ∀ (f : Fin NUM_BUCKETS → Impl) (i : Fin NUM_BUCKETS) (s : Impl),
      (∑ j : Fin NUM_BUCKETS, (Function.update f i s j).size) + (f i).size =
        (∑ j : Fin NUM_BUCKETS, (f j).size) + s.size := by
    intro f i s
    have e1 : (Function.update f i s i).size +
        ∑ j ∈ Finset.univ.erase i, (Function.update f i s j).size =
          ∑ j : Fin NUM_BUCKETS, (Function.update f i s j).size :=
      Finset.add_sum_erase Finset.univ (fun j => (Function.update f i s j).size)
        (Finset.mem_univ i)
    have e2 : (f i).size + ∑ j ∈ Finset.univ.erase i, (f j).size =
        ∑ j : Fin NUM_BUCKETS, (f j).size :=
      Finset.add_sum_erase Finset.univ (fun j => (f j).size) (Finset.mem_univ i)
    have e3 : ∑ j ∈ Finset.univ.erase i, (Function.update f i s j).size =
        ∑ j ∈ Finset.univ.erase i, (f j).size := by
      apply Finset.sum_congr rfl
      intro j hj
      rw [Function.update_noteq (Finset.ne_of_mem_erase hj)]
    simp only [Function.update_same] at e1
    rw [e3] at e1
    omega
  have hs := hsum t.impls ⟨bucket hv, hb⟩ ((t.impls ⟨bucket hv, hb⟩).emplace x).1
  have hsz := (t.impls ⟨bucket hv, hb⟩).size_emplace x
  have hi := (t.impls ⟨bucket hv, hb⟩).emplace_inserted_iff x
  unfold shardTotal
  rw [himpls, hins]
  by_cases hm : x ∈ (t.impls ⟨bucket hv, hb⟩).keys
  · have : ((t.impls ⟨bucket hv, hb⟩).emplace x).2.2 = false := by
      cases hc : ((t.impls ⟨bucket hv, hb⟩).emplace x).2.2
      · rfl
      · exact absurd hm (hi.1 hc)
    simp only [hm, if_true] at hsz
    simp only [this, Bool.false_eq_true, if_false]
    omega
  · have : ((t.impls ⟨bucket hv, hb⟩).emplace x).2.2 = true := hi.2 hm
    simp only [hm, if_false] at hsz
    simp only [this, if_true]
    omega

theorem size_le_shardTotal (t : TwoLevelHashTable) (i : Fin NUM_BUCKETS) :
    (t.impls i).size ≤ t.shardTotal :=
  Finset.single_le_sum (f := fun j : Fin NUM_BUCKETS => (t.impls j).size)
    (fun _ _ => Nat.zero_le _) (Finset.mem_univ i)

/-- The calls `read` and `readText` return the counter `m_size` as they found it. -/
theorem size_read (t t' : TwoLevelHashTable) (rb rest : Buffer) :
    (t.read rb = .ok (t', rest) → t'.size = t.size) ∧
      (t.readText rb = .ok (t', rest) → t'.size = t.size) := by
  constructor
  · intro h
    unfold read at h
    split at h
    · cases h
      rfl
    · cases h
  · intro h
    unfold readText at h
    split at h
    · cases h
      rfl
    · cases h

set_option maxRecDepth 100000 in
/-- C6, at `read` on a default-constructed table with the output of `write` for the table
holding the key 5 in shard 0: the table read holds one entry in shard 0 while `size()` is
still 0; the same happens with `readText` on the output of `writeText`. -/
theorem read_leaves_size_unassigned :
    default.size = default.shardTotal ∧
      run (fun k => k) [Op.emplace 5] default = some singleKeyTable ∧
      (∃ t rest, default.read singleKeyTable.write = .ok (t, rest) ∧
        (t.impls 0).cells = [⟨5, none⟩] ∧ t.size = 0 ∧ t.size ≠ t.shardTotal) ∧
      ∃ t rest, default.readText singleKeyTable.writeText = .ok (t, rest) ∧
        (t.impls 0).cells = [⟨5, none⟩] ∧ t.size = 0 ∧ t.size ≠ t.shardTotal := by
  have key : ∀ t : TwoLevelHashTable, (t.impls 0).cells = [⟨5, none⟩] → t.size = 0 →
      t.size ≠ t.shardTotal := by
    intro t h1 h2 h3
    have := size_le_shardTotal t 0
    rw [Impl.size, h1, ← h3, h2] at this
    simp at this
  refine ⟨shardTotal_default.symm ▸ rfl, rfl, ⟨_, _, rfl, ?_, rfl, ?_⟩, ⟨_, _, rfl, ?_, rfl, ?_⟩⟩
  · decide
  · exact key _ (by decide) rfl
  · decide
  · exact key _ (by decide) rfl

end TwoLevelHashTable

/-! ## One shard per key -/

namespace TwoLevelHashTable

theorem routed_emplaceWithHash (H : Key → Nat) (t t' : TwoLevelHashTable) (x : Key) (hv : Nat)
    (it : iterator) (ins : Bool) (h : t.emplaceWithHash x hv = some (t', it, ins))
    (hh : bucket hv = bucket (hash H x))
    (hr : ∀ (i : Fin NUM_BUCKETS) (k : Key), k ∈ (t.impls i).keys → bucket (hash H k) = i.val) :
    ∀ (i : Fin NUM_BUCKETS) (k : Key), k ∈ (t'.impls i).keys → bucket (hash H k) = i.val := by
  obtain ⟨hb, himpls, -, -, -⟩ := emplaceWithHash_inv t t' x hv it ins h
  intro i k hk
  rw [himpls] at hk
  by_cases hi : i = ⟨bucket hv, hb⟩
  · subst hi
    rw [Function.update_same, Impl.mem_keys_emplace] at hk
    rcases hk with hk | rfl
    · exact hr _ k hk
    · exact hh.symm
  · rw [Function.update_noteq hi] at hk
    exact hr i k hk

theorem routed_run (H : Key → Nat) (ops : List Op) (t t' : TwoLevelHashTable)
    (hops : ∀ op ∈ ops, bucket (op.hashValue H) = bucket (hash H op.key))
    (hrun : run H ops t = some t')
    (hr : ∀ (i : Fin NUM_BUCKETS) (k : Key), k ∈ (t.impls i).keys → bucket (hash H k) = i.val) :
    ∀ (i : Fin NUM_BUCKETS) (k : Key), k ∈ (t'.impls i).keys → bucket (hash H k) = i.val := by
  induction ops generalizing t with
  | nil =>
      simp only [run, Option.some.injEq] at hrun
      exact hrun ▸ hr
  | cons op ops ih =>
      simp only [run] at hrun
      cases hop : apply H t op with
      | none => simp [hop] at hrun
      | some r =>
          obtain ⟨t1, it, ins⟩ := r
          simp only [hop] at hrun
          rw [apply_eq] at hop
          exact ih t1 (fun o ho => hops o (List.mem_cons_of_mem _ ho)) hrun
            (routed_emplaceWithHash H t t1 _ _ it ins hop (hops op (List.mem_cons_self _ _)) hr)

/-- C7, the claim at two calls of `emplace(key, hashValue)` for the key 5 with the hash values
0 and `2 ^ 24`: the table reached holds the key 5 in shard 0 and in shard 1. -/
theorem key_in_two_shards :
    ∃ t, run (fun k => k) [Op.emplaceWithHash 5 0, Op.emplaceWithHash 5 16777216] default =
        some t ∧ 5 ∈ (t.impls 0).keys ∧ 5 ∈ (t.impls 1).keys ∧ (0 : Fin NUM_BUCKETS) ≠ 1 :=
  ⟨_, rfl, by decide⟩

/-- C7, amended: in every table reached from a default-constructed one by calls of `insert`,
`emplace(key)` and `emplace(key, hashValue)` in which every hash value passed selects the
shard that the hash of the key selects, a key held by two shards is held by one and the
same shard, the one its hash selects. -/
theorem key_in_one_shard (H : Key → Nat) (ops : List Op) (t : TwoLevelHashTable)
    (hops : ∀ op ∈ ops, bucket (op.hashValue H) = bucket (hash H op.key))
    (hrun : run H ops default = some t) (i j : Fin NUM_BUCKETS) (k : Key)
    (hi : k ∈ (t.impls i).keys) (hj : k ∈ (t.impls j).keys) :
    i = j ∧ i.val = bucket (hash H k) := by
  have hr := routed_run H ops default t hops hrun
    (fun i k hk => by simp [default, Impl.keys] at hk)
  exact ⟨Fin.ext ((hr i k hi).symm.trans (hr j k hj)), (hr i k hi).symm⟩

theorem key_in_one_shard_witness :
    (∀ op ∈ [Op.emplace 1, Op.emplaceWithHash 3 50331648],
        bucket (op.hashValue (fun k => k * 16777216)) =
          bucket (hash (fun k => k * 16777216) op.key)) ∧
      run (fun k => k * 16777216) [Op.emplace 1, Op.emplaceWithHash 3 50331648] default =
        some twoKeyTable ∧
      3 ∈ (twoKeyTable.impls 3).keys ∧
      ((3 : Fin NUM_BUCKETS) = 3 ∧ 3 = bucket (hash (fun k => k * 16777216) 3)) :=
  have hrun : run (fun k => k * 16777216) [Op.emplace 1, Op.emplaceWithHash 3 50331648]
      default = some twoKeyTable := rfl
  ⟨by decide, hrun, by decide,
    key_in_one_shard (fun k => k * 16777216) [Op.emplace 1, Op.emplaceWithHash 3 50331648]
      twoKeyTable (by decide) hrun 3 3 3 (by decide) (by decide)⟩

/-! ## Iteration -/

theorem scanBuckets_spec (impls : Fin NUM_BUCKETS → Impl) (fuel b : Nat)
    (hb : b < 256) (hf : 256 - b ≤ fuel) :
    ∃ r, scanBuckets impls fuel b = some r ∧ b < r ∧ r ≤ 256 ∧
      (∀ h : r < NUM_BUCKETS, (impls ⟨r, h⟩).empty = true) ∧
      ∀ (j : Nat) (h : j < NUM_BUCKETS), b < j → j < r → (impls ⟨j, h⟩).empty = false := by
  induction fuel generalizing b with
  | zero => omega
  | succ fuel ih =>
      have hw : wrapSize (b + 1) = b + 1 := Nat.mod_eq_of_lt (by omega)
      unfold scanBuckets
      simp only [hw]
      by_cases h256 : b + 1 = 256
      · rw [if_pos h256]
        exact ⟨b + 1, rfl, by omega, by omega,
          fun h => absurd (show b + 1 < 256 from h) (by omega), fun j _ h1 h2 => by omega⟩
      · have hlt : b + 1 < NUM_BUCKETS := show b + 1 < 256 by omega
        rw [if_neg h256, dif_pos hlt]
        cases he : (impls ⟨b + 1, hlt⟩).empty
        · obtain ⟨r, hr, h1, h2, h3, h4⟩ := ih (b + 1) hlt (by omega)
          refine ⟨r, by simpa using hr, by omega, h2, h3, ?_⟩
          intro j hj hbj hjr
          by_cases hj1 : j = b + 1
          · subst hj1
            exact he
          · exact h4 j hj (by omega) hjr
        · refine ⟨b + 1, by simp, by omega, by omega, fun _ => he, fun j _ h1 h2 => by omega⟩

/-- For every table `begin()` is defined, and the position it returns is never that of
a live cell: it is `end()` or the begin position of an empty shard. -/
theorem begin_not_live (t : TwoLevelHashTable) :
    ∃ it, t.begin = some it ∧ deref t it = none := by
  obtain ⟨r, hr, h1, h2, h3, -⟩ := scanBuckets_spec t.impls (NUM_BUCKETS + 1) 0 (by decide)
    (by decide)
  unfold begin beginOfNextNonEmptyBucket
  rw [hr]
  by_cases h256 : r = 256
  · simp only [h256, if_true, Option.map_some']
    refine ⟨_, rfl, ?_⟩
    simp [deref, implEnd, Impl.end_]
  · have hlt : r < NUM_BUCKETS := show r < 256 by omega
    simp only [if_neg h256, dif_pos hlt, Option.map_some']
    refine ⟨_, rfl, ?_⟩
    have he := h3 hlt
    simp only [Impl.empty, List.isEmpty_iff] at he
    simp [deref, implBegin, Impl.begin, hlt, he]

/-- For every table a full traversal collects no cell: it stops at once or dereferences
a position that holds no live cell. -/
theorem traverse_visits_nothing (t : TwoLevelHashTable) (fuel : Nat) :
    t.traverse fuel = none ∨ t.traverse fuel = some [] := by
  obtain ⟨it, hit, hd⟩ := begin_not_live t
  unfold traverse
  rw [hit]
  cases fuel with
  | zero => exact Or.inl rfl
  | succ fuel =>
      unfold traverseFrom
      by_cases hne : it.ne t.end_ = true
      · left
        simp [hne, hd]
      · right
        simp [hne]

/-- C8, at the table holding the key 5 alone, in shard 0, for which `size()` is 1:
`begin()` is position 0 of shard 1, an empty shard, and differs from `end()`; no cell is
under it, and the traversal does not return the entry of shard 0. -/
theorem traversal_misses_entry :
    run (fun k => k) [Op.insert (5, 7)] default = some singleKeyTable ∧
      singleKeyTable.size = 1 ∧ (singleKeyTable.impls 0).cells = [⟨5, none⟩] ∧
      singleKeyTable.begin = some ⟨1, ⟨1, 0⟩⟩ ∧ (singleKeyTable.impls 1).empty = true ∧
      (⟨1, ⟨1, 0⟩⟩ : iterator).ne singleKeyTable.end_ = true ∧
      deref singleKeyTable ⟨1, ⟨1, 0⟩⟩ = none ∧
      singleKeyTable.traverse 1000 = none := by
  refine ⟨rfl, ?_⟩
  decide

/-- C9, at the table holding the key 1 in shard 1 and the key 3 in shard 3: the non-empty
shard of lowest index is shard 1, and `begin()` is the begin position of the empty shard 2.
At the table holding the key 5 in shard 0, `begin()` is a position of shard 1, not one of
shard 0; at the default-constructed table it is position 0 of shard 1, not the end position
of shard 255. -/
theorem begin_skips_to_empty_shard :
    run (fun k => k * 16777216) [Op.emplace 1, Op.emplace 3] default = some twoKeyTable ∧
      (twoKeyTable.impls 0).empty = true ∧ (twoKeyTable.impls 1).empty = false ∧
      (twoKeyTable.impls 2).empty = true ∧
      twoKeyTable.begin = some ⟨2, implBegin twoKeyTable.impls 2⟩ ∧
      twoKeyTable.begin ≠ some ⟨1, implBegin twoKeyTable.impls 1⟩ ∧
      (singleKeyTable.impls 0).empty = false ∧
      singleKeyTable.begin = some ⟨1, implBegin singleKeyTable.impls 1⟩ ∧
      singleKeyTable.begin ≠ some ⟨0, implBegin singleKeyTable.impls 0⟩ ∧
      (∀ i : Fin NUM_BUCKETS, (default.impls i).empty = true) ∧
      default.begin = some ⟨1, implBegin default.impls 1⟩ ∧
      default.begin ≠ some ⟨NUM_BUCKETS - 1, implEnd default.impls ⟨NUM_BUCKETS - 1, by decide⟩⟩ ∧
      default.begin ≠ some ⟨NUM_BUCKETS, implEnd default.impls ⟨NUM_BUCKETS - 1, by decide⟩⟩ := by
  refine ⟨rfl, ?_⟩
  refine ⟨by decide, by decide, by decide, by decide, by decide, by decide, by decide,
    by decide, fun _ => rfl, by decide, by decide, by decide⟩

/-- C10, at the default-constructed table: `empty()` is true and `size()` is 0, but `begin()`
is position 0 of shard 1 and `end()` is the end position of shard 255, and the operator
`==` of the iterators tells them apart. -/
theorem begin_ne_end_of_default :
    default.empty = true ∧ default.size = 0 ∧
      default.begin = some ⟨1, ⟨1, 0⟩⟩ ∧ default.end_ = ⟨255, ⟨255, 0⟩⟩ ∧
      default.begin.map (fun b => b.eq default.end_) = some false ∧
      default.begin.map (fun b => b.ne default.end_) = some true := by
  decide

end TwoLevelHashTable

/-! ## Encodings of the elementary table -/

namespace Impl

theorem decodeMapped_encodeMapped (m : Option Mapped) : decodeMapped (encodeMapped m) = m := by
  cases m <;> rfl

theorem insertCell_of_not_mem (s : Impl) (c : Cell) (h : c.key ∉ s.keys) :
    s.insertCell c = ⟨s.cells ++ [c]⟩ := by
  have : s.find c.key = s.end_ := (s.find_eq_end_iff c.key).2 h
  simp [insertCell, this]

theorem readTextCells_encoding (cells : List Cell) (acc : Impl) (rest : Buffer)
    (hnd : ((acc.cells ++ cells).map (fun c => c.key)).Nodup) :
    readTextCells cells.length acc
        (cells.flatMap (fun c =>
          [Tok.chr ',', Tok.num c.key, Tok.chr ',', Tok.num (encodeMapped c.mapped)]) ++ rest) =
      .ok (⟨acc.cells ++ cells⟩, rest) := by
  induction cells generalizing acc with
  | nil => simp [readTextCells]
  | cons c cs ih =>
      have hc : c.key ∉ acc.keys := by
        intro hmem
        rw [List.map_append, List.map_cons] at hnd
        have := (List.nodup_append.1 hnd).2.2
        exact this hmem (List.mem_cons_self _ _)
      have hnd' : (((acc.insertCell c).cells ++ cs).map (fun c => c.key)).Nodup := by
        rw [insertCell_of_not_mem acc c hc]
        simpa using hnd
      have := ih (acc.insertCell c) hnd'
      rw [insertCell_of_not_mem acc c hc] at this
      simp only [List.flatMap_cons, List.length_cons, List.cons_append, List.nil_append,
        readTextCells, decodeMapped_encodeMapped]
      rw [insertCell_of_not_mem acc c hc]
      simpa using this

theorem readCells_encoding (cells : List Cell) (acc : Impl) (rest : Buffer)
    (hnd : ((acc.cells ++ cells).map (fun c => c.key)).Nodup) :
    readCells cells.length acc
        (cells.flatMap (fun c => [Tok.num c.key, Tok.num (encodeMapped c.mapped)]) ++ rest) =
      .ok (⟨acc.cells ++ cells⟩, rest) := by
  induction cells generalizing acc with
  | nil => simp [readCells]
  | cons c cs ih =>
      have hc : c.key ∉ acc.keys := by
        intro hmem
        rw [List.map_append, List.map_cons] at hnd
        have := (List.nodup_append.1 hnd).2.2
        exact this hmem (List.mem_cons_self _ _)
      have hnd' : (((acc.insertCell c).cells ++ cs).map (fun c => c.key)).Nodup := by
        rw [insertCell_of_not_mem acc c hc]
        simpa using hnd
      have := ih (acc.insertCell c) hnd'
      rw [insertCell_of_not_mem acc c hc] at this
      simp only [List.flatMap_cons, List.length_cons, List.cons_append, List.nil_append,
        readCells, decodeMapped_encodeMapped]
      rw [insertCell_of_not_mem acc c hc]
      simpa using this

/-- In the model of the elementary table, `readText` applied to the output of `writeText`
of a table with pairwise different keys returns that table and consumes exactly its
encoding. -/
theorem readText_own_encoding (s s0 : Impl) (rest : Buffer) (hnd : s.keys.Nodup) :
    s0.readText (s.writeText ++ rest) = .ok (s, rest) := by
  have := readTextCells_encoding s.cells ⟨[]⟩ rest (by simpa [keys] using hnd)
  simpa [readText, writeText, size] using this

/-- In the model of the elementary table, `read` applied to the output of `write` of a table
with pairwise different keys returns that table and consumes exactly its encoding. -/
theorem read_own_encoding (s s0 : Impl) (rest : Buffer) (hnd : s.keys.Nodup) :
    s0.read (s.write ++ rest) = .ok (s, rest) := by
  have := readCells_encoding s.cells ⟨[]⟩ rest (by simpa [keys] using hnd)
  simpa [read, write, size] using this

theorem keys_nodup_emplace (s : Impl) (x : Key) (hnd : s.keys.Nodup) :
    (s.emplace x).1.keys.Nodup := by
  rw [keys_emplace]
  by_cases h : x ∈ s.keys
  · simpa [h] using hnd
  · simp only [h, if_false]
    exact List.Nodup.append hnd (List.nodup_singleton x) (by simpa using h)

end Impl

/-! ## Serialization -/

namespace TwoLevelHashTable

theorem readTextFrom_succ (n i : Nat) (impls : Fin NUM_BUCKETS → Impl) (rb : Buffer) :
    readTextFrom (n + 1) i impls rb =
      if h : i < NUM_BUCKETS then
        match (if i ≠ 0 then assertComma rb else some rb) with
        | none => .error impls
        | some rb1 =>
            match (impls ⟨i, h⟩).readText rb1 with
            | .ok (s, rb') => readTextFrom n (i + 1) (Function.update impls ⟨i, h⟩ s) rb'
            | .error s => .error (Function.update impls ⟨i, h⟩ s)
      else .error impls := by
  rw [readTextFrom]

theorem readFrom_succ (n i : Nat) (impls : Fin NUM_BUCKETS → Impl) (rb : Buffer) :
    readFrom (n + 1) i impls rb =
      if h : i < NUM_BUCKETS then
        match (impls ⟨i, h⟩).read rb with
        | .ok (s, rb') => readFrom n (i + 1) (Function.update impls ⟨i, h⟩ s) rb'
        | .error s => .error (Function.update impls ⟨i, h⟩ s)
      else .error impls := by
  rw [readFrom]

/-- Reading `a + b` shards is reading `a` shards and then `b` more. -/
theorem readTextFrom_add (a b i : Nat) (impls : Fin NUM_BUCKETS → Impl) (rb : Buffer) :
    readTextFrom (a + b) i impls rb =
      match readTextFrom a i impls rb with
      | .ok (impls', rb') => readTextFrom b (i + a) impls' rb'
      | .error e => .error e := by
  induction a generalizing i impls rb with
  | zero => simp [readTextFrom]
  | succ a ih =>
      rw [Nat.add_right_comm, readTextFrom_succ (a + b), readTextFrom_succ a]
      by_cases h : i < NUM_BUCKETS
      · simp only [dif_pos h]
        cases hc : (if i ≠ 0 then assertComma rb else some rb) with
        | none => rfl
        | some rb1 =>
            simp only []
            cases hr : (impls ⟨i, h⟩).readText rb1 with
            | error s => rfl
            | ok r =>
                obtain ⟨s, rb'⟩ := r
                simp only []
                rw [ih, Nat.add_assoc, Nat.add_comm 1 a]
      · simp only [dif_neg h]

/-- Reading `a + b` shards is reading `a` shards and then `b` more. -/
theorem readFrom_add (a b i : Nat) (impls : Fin NUM_BUCKETS → Impl) (rb : Buffer) :
    readFrom (a + b) i impls rb =
      match readFrom a i impls rb with
      | .ok (impls', rb') => readFrom b (i + a) impls' rb'
      | .error e => .error e := by
  induction a generalizing i impls rb with
  | zero => simp [readFrom]
  | succ a ih =>
      rw [Nat.add_right_comm, readFrom_succ (a + b), readFrom_succ a]
      by_cases h : i < NUM_BUCKETS
      · simp only [dif_pos h]
        cases hr : (impls ⟨i, h⟩).read rb with
        | error s => rfl
        | ok r =>
            obtain ⟨s, rb'⟩ := r
            simp only []
            rw [ih, Nat.add_assoc, Nat.add_comm 1 a]
      · simp only [dif_neg h]

/-- The loop of `readText` over the shards `i .. i + n - 1` leaves the other shards alone. -/
theorem readTextFrom_frame (n i : Nat) (impls impls' : Fin NUM_BUCKETS → Impl)
    (rb rb' : Buffer) (h : readTextFrom n i impls rb = .ok (impls', rb'))
    (j : Fin NUM_BUCKETS) (hj : j.val < i ∨ i + n ≤ j.val) : impls' j = impls j := by
  induction n generalizing i impls rb with
  | zero =>
      simp only [readTextFrom, Except.ok.injEq, Prod.mk.injEq] at h
      rw [← h.1]
  | succ n ih =>
      rw [readTextFrom_succ] at h
      by_cases hi : i < NUM_BUCKETS
      · simp only [dif_pos hi] at h
        cases hc : (if i ≠ 0 then assertComma rb else some rb) with
        | none => simp [hc] at h
        | some rb1 =>
            simp only [hc] at h
            cases hr : (impls ⟨i, hi⟩).readText rb1 with
            | error s => simp [hr] at h
            | ok r =>
                obtain ⟨s, rb2⟩ := r
                simp only [hr] at h
                rw [ih (i + 1) _ rb2 h (by omega)]
                exact Function.update_noteq (fun e => by
                  have := congrArg Fin.val e
                  simp at this
                  omega) _ _
      · simp [dif_neg hi] at h

end TwoLevelHashTable

/-! ## Failure of `readText` at a separator -/

namespace TwoLevelHashTable

theorem assertComma_eq_none (rb : Buffer) (h : ∀ rest, rb ≠ Tok.chr ',' :: rest) :
    assertComma rb = none := by
  unfold assertComma
  split
  · exact absurd rfl (h _)
  · rfl

/-- When the shards `0 .. i - 1` were read and no comma follows, the loop of `readText`
stops with the shards as they are at that point. -/
theorem readTextFrom_error_at (impls impls' : Fin NUM_BUCKETS → Impl) (rb rb' : Buffer)
    (i : Nat) (h1 : 1 ≤ i) (h255 : i ≤ 255)
    (hread : readTextFrom i 0 impls rb = .ok (impls', rb')) (hsep : assertComma rb' = none) :
    readTextFrom NUM_BUCKETS 0 impls rb = .error impls' := by
  have hi : i < NUM_BUCKETS := show i < 256 by omega
  have h0 : i ≠ 0 := by omega
  have key : ∀ n, n = i + ((255 - i) + 1) → readTextFrom n 0 impls rb = .error impls' := by
    intro n hn
    rw [hn, readTextFrom_add, hread]
    simp only [Nat.zero_add]
    rw [readTextFrom_succ, dif_pos hi, if_pos h0, hsep]
  exact key NUM_BUCKETS (show 256 = i + ((255 - i) + 1) by omega)

/-- C13: when the encodings of the shards `0 .. i - 1` have been read from a text input,
`1 <= i <= 255`, and what follows does not begin with a comma (the input ends there or
goes on with something else), `readText` fails. And the encoding of shard 0 is read from the
very beginning of the input: when it is read, the loop goes on with shard 1 on the rest. -/
theorem readText_fails_without_separator (t : TwoLevelHashTable) (rb rb' : Buffer) (i : Nat)
    (impls' : Fin NUM_BUCKETS → Impl) (h1 : 1 ≤ i) (h255 : i ≤ 255)
    (hread : readTextFrom i 0 t.impls rb = .ok (impls', rb'))
    (hsep : ∀ rest, rb' ≠ Tok.chr ',' :: rest) :
    (∃ e, t.readText rb = .error e) ∧
      ∀ (rb0 r : Buffer) (s : Impl), (t.impls 0).readText rb0 = .ok (s, r) →
        readTextFrom NUM_BUCKETS 0 t.impls rb0 =
          readTextFrom 255 1 (Function.update t.impls 0 s) r := by
  constructor
  · refine ⟨⟨t.m_size, impls'⟩, ?_⟩
    unfold readText
    rw [readTextFrom_error_at t.impls impls' rb rb' i h1 h255 hread
      (assertComma_eq_none rb' hsep)]
  · intro rb0 r s hs
    show readTextFrom (255 + 1) 0 t.impls rb0 = _
    rw [readTextFrom_succ, dif_pos (by decide)]
    simp only [ne_eq, not_true_eq_false, if_false]
    have h0 : (⟨0, by decide⟩ : Fin NUM_BUCKETS) = 0 := rfl
    rw [h0, hs]

theorem readText_fails_without_separator_witness :
    ∃ impls' rb', (1 ≤ 1 ∧ 1 ≤ 255) ∧
      readTextFrom 1 0 default.impls [Tok.num 0, Tok.num 0] = .ok (impls', rb') ∧
      (∀ rest, rb' ≠ Tok.chr ',' :: rest) ∧
      ∃ e, default.readText [Tok.num 0, Tok.num 0] = .error e := by
  obtain ⟨⟨impls', rb'⟩, hread, hrb⟩ :
      ∃ r, readTextFrom 1 0 default.impls [Tok.num 0, Tok.num 0] = .ok r ∧
        r.2 = [Tok.num 0] := ⟨_, rfl, rfl⟩
  have hsep : ∀ rest, rb' ≠ Tok.chr ',' :: rest := by
    intro rest h
    simp only at hrb
    rw [hrb] at h
    simp at h
  exact ⟨impls', rb', ⟨by decide, by decide⟩, hread, hsep,
    (readText_fails_without_separator default _ rb' 1 impls' (by decide) (by decide)
      hread hsep).1⟩

/-- C20: when the shards `0 .. i - 1` have been read, `1 <= i <= 255`, and the comma expected
before shard `i` is not there, `readText` fails with the table as it is at that point: the
shards `i .. 255` are as before the call, and each shard `j < i` holds what the `readText`
of the elementary table returned for it on the input left by the shards before it. -/
theorem readText_failure_keeps_read_shards (t : TwoLevelHashTable) (rb rb' : Buffer) (i : Nat)
    (impls' : Fin NUM_BUCKETS → Impl) (h1 : 1 ≤ i) (h255 : i ≤ 255)
    (hread : readTextFrom i 0 t.impls rb = .ok (impls', rb'))
    (hsep : assertComma rb' = none) :
    t.readText rb = .error ⟨t.m_size, impls'⟩ ∧
      (∀ j : Fin NUM_BUCKETS, i ≤ j.val → impls' j = t.impls j) ∧
      ∀ j : Fin NUM_BUCKETS, j.val < i →
        ∃ implsj rbj rbj1 rbj2, readTextFrom j.val 0 t.impls rb = .ok (implsj, rbj) ∧
          (if j.val ≠ 0 then assertComma rbj else some rbj) = some rbj1 ∧
          implsj j = t.impls j ∧
          (implsj j).readText rbj1 = .ok (impls' j, rbj2) := by
  refine ⟨?_, ?_, ?_⟩
  · unfold readText
    rw [readTextFrom_error_at t.impls impls' rb rb' i h1 h255 hread hsep]
  · intro j hj
    exact readTextFrom_frame i 0 t.impls impls' rb rb' hread j (Or.inr (by omega))
  · intro j hj
    have hi : i = j.val + ((i - j.val - 1) + 1) := by omega
    have hread' := hread
    rw [hi, readTextFrom_add] at hread'
    cases hp : readTextFrom j.val 0 t.impls rb with
    | error e => simp [hp] at hread'
    | ok p =>
        obtain ⟨implsj, rbj⟩ := p
        simp only [hp, Nat.zero_add] at hread'
        rw [readTextFrom_succ, dif_pos j.isLt] at hread'
        cases hc : (if j.val ≠ 0 then assertComma rbj else some rbj) with
        | none => simp [hc] at hread'
        | some rbj1 =>
            simp only [hc] at hread'
            cases hr : (implsj ⟨j.val, j.isLt⟩).readText rbj1 with
            | error s => simp [hr] at hread'
            | ok q =>
                obtain ⟨s, rbj2⟩ := q
                simp only [hr] at hread'
                have hfr := readTextFrom_frame _ _ _ _ _ _ hread' j (Or.inl (by omega))
                rw [Function.update_same] at hfr
                refine ⟨implsj, rbj, rbj1, rbj2, rfl, hc, ?_, ?_⟩
                · exact readTextFrom_frame _ _ _ _ _ _ hp j (Or.inr (by omega))
                · rw [hfr]
                  exact hr

theorem readText_failure_keeps_read_shards_witness :
    ∃ impls' rb', (1 ≤ 2 ∧ 2 ≤ 255) ∧
      readTextFrom 2 0 default.impls
          [Tok.num 1, Tok.chr ',', Tok.num 5, Tok.chr ',', Tok.num 8, Tok.chr ',', Tok.num 0] =
        .ok (impls', rb') ∧
      assertComma rb' = none ∧
      default.readText
          [Tok.num 1, Tok.chr ',', Tok.num 5, Tok.chr ',', Tok.num 8, Tok.chr ',', Tok.num 0] =
        .error ⟨0, impls'⟩ ∧
      (impls' 0).cells = [⟨5, some 7⟩] := by
  obtain ⟨⟨impls', rb'⟩, hread, hrb, h0⟩ :
      ∃ r, readTextFrom 2 0 default.impls
          [Tok.num 1, Tok.chr ',', Tok.num 5, Tok.chr ',', Tok.num 8, Tok.chr ',', Tok.num 0] =
          .ok r ∧ assertComma r.2 = none ∧ (r.1 0).cells = [⟨5, some 7⟩] :=
    ⟨_, rfl, rfl, by decide⟩
  exact ⟨impls', rb', ⟨by decide, by decide⟩, hread, hrb,
    (readText_failure_keeps_read_shards default _ rb' 2 impls' (by decide) (by decide)
      hread hrb).1, h0⟩

end TwoLevelHashTable

/-! ## Round trips -/

namespace TwoLevelHashTable

theorem writeTextFrom_succ (impls : Fin NUM_BUCKETS → Impl) (n i : Nat) :
    writeTextFrom impls (n + 1) i =
      (if i ≠ 0 then [Tok.chr ','] else []) ++
        (if h : i < NUM_BUCKETS then (impls ⟨i, h⟩).writeText else []) ++
        writeTextFrom impls n (i + 1) := by
  rw [writeTextFrom]

theorem writeFrom_succ (impls : Fin NUM_BUCKETS → Impl) (n i : Nat) :
    writeFrom impls (n + 1) i =
      (if h : i < NUM_BUCKETS then (impls ⟨i, h⟩).write else []) ++
        writeFrom impls n (i + 1) := by
  rw [writeFrom]

/-- The loop of `readText` on the output of the loop of `writeText` for the shards
`i .. i + n - 1`, when the elementary table reads back what it writes. -/
theorem readTextFrom_writeTextFrom (impls : Fin NUM_BUCKETS → Impl)
    (hrt : ∀ (i : Fin NUM_BUCKETS) (s : Impl) (rest : Buffer),
      s.readText ((impls i).writeText ++ rest) = .ok (impls i, rest))
    (n i : Nat) (hi : i + n ≤ 256) (impls0 : Fin NUM_BUCKETS → Impl) (rest : Buffer) :
    readTextFrom n i impls0 (writeTextFrom impls n i ++ rest) =
      .ok (fun j => if i ≤ j.val ∧ j.val < i + n then impls j else impls0 j, rest) := by
  induction n generalizing i impls0 with
  | zero =>
      have : (fun j : Fin NUM_BUCKETS => if i ≤ j.val ∧ j.val < i + 0 then impls j else impls0 j) =
          impls0 := by
        funext j
        rw [if_neg (by omega)]
      rw [this]
      simp [readTextFrom, writeTextFrom]
  | succ n ih =>
      have hlt : i < NUM_BUCKETS := show i < 256 by omega
      rw [readTextFrom_succ, writeTextFrom_succ, dif_pos hlt, dif_pos hlt]
      have hcomma : (if i ≠ 0 then
            assertComma ((if i ≠ 0 then [Tok.chr ','] else []) ++ (impls ⟨i, hlt⟩).writeText ++
              writeTextFrom impls n (i + 1) ++ rest)
          else some ((if i ≠ 0 then [Tok.chr ','] else []) ++ (impls ⟨i, hlt⟩).writeText ++
              writeTextFrom impls n (i + 1) ++ rest)) =
          some ((impls ⟨i, hlt⟩).writeText ++ (writeTextFrom impls n (i + 1) ++ rest)) := by
        by_cases h0 : i = 0
        · simp [h0]
        · simp [h0, assertComma]
      rw [hcomma]
      simp only []
      rw [hrt ⟨i, hlt⟩]
      simp only []
      rw [ih (i + 1) (by omega)]
      congr 2
      funext j
      by_cases hj : j = ⟨i, hlt⟩
      · subst hj
        simp
      · have hne : j.val ≠ i := fun e => hj (Fin.ext e)
        rw [Function.update_noteq hj]
        by_cases hc : i + 1 ≤ j.val ∧ j.val < i + 1 + n
        · rw [if_pos hc, if_pos (by omega)]
        · rw [if_neg hc, if_neg (by omega)]

/-- The loop of `read` on the output of the loop of `write` for the shards
`i .. i + n - 1`, when the elementary table reads back what it writes. -/
theorem readFrom_writeFrom (impls : Fin NUM_BUCKETS → Impl)
    (hrt : ∀ (i : Fin NUM_BUCKETS) (s : Impl) (rest : Buffer),
      s.read ((impls i).write ++ rest) = .ok (impls i, rest))
    (n i : Nat) (hi : i + n ≤ 256) (impls0 : Fin NUM_BUCKETS → Impl) (rest : Buffer) :
    readFrom n i impls0 (writeFrom impls n i ++ rest) =
      .ok (fun j => if i ≤ j.val ∧ j.val < i + n then impls j else impls0 j, rest) := by
  induction n generalizing i impls0 with
  | zero =>
      have : (fun j : Fin NUM_BUCKETS => if i ≤ j.val ∧ j.val < i + 0 then impls j else impls0 j) =
          impls0 := by
        funext j
        rw [if_neg (by omega)]
      rw [this]
      simp [readFrom, writeFrom]
  | succ n ih =>
      have hlt : i < NUM_BUCKETS := show i < 256 by omega
      rw [readFrom_succ, writeFrom_succ, dif_pos hlt, dif_pos hlt, List.append_assoc,
        hrt ⟨i, hlt⟩]
      simp only []
      rw [ih (i + 1) (by omega)]
      congr 2
      funext j
      by_cases hj : j = ⟨i, hlt⟩
      · subst hj
        simp
      · have hne : j.val ≠ i := fun e => hj (Fin.ext e)
        rw [Function.update_noteq hj]
        by_cases hc : i + 1 ≤ j.val ∧ j.val < i + 1 + n
        · rw [if_pos hc, if_pos (by omega)]
        · rw [if_neg hc, if_neg (by omega)]

/-- When the elementary table reads back what it writes, `read` applied to the output of
`write` returns the shards of the table written, with the counter of the table read into. -/
theorem read_write_shards (t t0 : TwoLevelHashTable)
    (hrt : ∀ (i : Fin NUM_BUCKETS) (s : Impl) (rest : Buffer),
      s.read ((t.impls i).write ++ rest) = .ok (t.impls i, rest)) :
    t0.read t.write = .ok (⟨t0.m_size, t.impls⟩, []) := by
  have h := readFrom_writeFrom t.impls hrt NUM_BUCKETS 0 (by decide) t0.impls []
  rw [List.append_nil] at h
  have hf : (fun j : Fin NUM_BUCKETS =>
      if 0 ≤ j.val ∧ j.val < 0 + NUM_BUCKETS then t.impls j else t0.impls j) = t.impls := by
    funext j
    rw [if_pos ⟨Nat.zero_le _, by have := j.isLt; omega⟩]
  rw [hf] at h
  simp only [read, write, h]

/-- C12: for every table whose shards are read back by the `readText` of the elementary
table from their own `writeText` output, whatever follows it, `readText` on a
default-constructed table applied to the output of `writeText` succeeds, consumes the whole
input and yields the shards of the table written, so every shard holds the keys it held. -/
theorem readText_writeText (t : TwoLevelHashTable)
    (hrt : ∀ (i : Fin NUM_BUCKETS) (s : Impl) (rest : Buffer),
      s.readText ((t.impls i).writeText ++ rest) = .ok (t.impls i, rest)) :
    ∃ t', default.readText t.writeText = .ok (t', []) ∧ t'.impls = t.impls ∧
      ∀ i : Fin NUM_BUCKETS, (t'.impls i).keys = (t.impls i).keys := by
  have h := readTextFrom_writeTextFrom t.impls hrt NUM_BUCKETS 0 (by decide) default.impls []
  rw [List.append_nil] at h
  have hf : (fun j : Fin NUM_BUCKETS =>
      if 0 ≤ j.val ∧ j.val < 0 + NUM_BUCKETS then t.impls j else default.impls j) =
        t.impls := by
    funext j
    rw [if_pos ⟨Nat.zero_le _, by have := j.isLt; omega⟩]
  rw [hf] at h
  exact ⟨⟨default.m_size, t.impls⟩, by simp only [readText, writeText, h], rfl, fun _ => rfl⟩

theorem twoKeyTable_keys_nodup (i : Fin NUM_BUCKETS) : (twoKeyTable.impls i).keys.Nodup := by
  show (Function.update (Function.update default.impls 1 ⟨[⟨1, none⟩]⟩) 3
    ⟨[⟨3, none⟩]⟩ i).keys.Nodup
  by_cases h3 : i = 3
  · subst h3
    decide
  · rw [Function.update_noteq h3]
    by_cases h1 : i = 1
    · subst h1
      decide
    · rw [Function.update_noteq h1]
      exact List.nodup_nil

theorem readText_writeText_witness :
    (∀ (i : Fin NUM_BUCKETS) (s : Impl) (rest : Buffer),
        s.readText ((twoKeyTable.impls i).writeText ++ rest) = .ok (twoKeyTable.impls i, rest)) ∧
      ∃ t', default.readText twoKeyTable.writeText = .ok (t', []) ∧
        (t'.impls 1).keys = [1] ∧ (t'.impls 3).keys = [3] ∧ (t'.impls 0).keys = [] := by
  have hrt : ∀ (i : Fin NUM_BUCKETS) (s : Impl) (rest : Buffer),
      s.readText ((twoKeyTable.impls i).writeText ++ rest) = .ok (twoKeyTable.impls i, rest) :=
    fun i s rest => Impl.readText_own_encoding _ s rest (twoKeyTable_keys_nodup i)
  obtain ⟨t', h1, h2, -⟩ := readText_writeText twoKeyTable hrt
  exact ⟨hrt, t', h1, by rw [h2]; decide, by rw [h2]; decide, by rw [h2]; decide⟩

end TwoLevelHashTable

/-! ## The formats written -/

namespace TwoLevelHashTable

theorem intercalate_cons_eq {α : Type} (sep x : List α) (xs : List (List α)) :
    List.intercalate sep (x :: xs) = x ++ (xs.map (fun y => sep ++ y)).flatten := by
  induction xs generalizing x with
  | nil => simp [List.intercalate]
  | cons y ys ih =>
      have h := ih y
      simp only [List.intercalate] at h ⊢
      rw [List.intersperse_cons₂, List.flatten_cons, List.flatten_cons, h]
      simp

theorem length_intercalate_cons {α : Type} (sep x : List α) (xs : List (List α)) :
    (List.intercalate sep (x :: xs)).length =
      ((x :: xs).map List.length).sum + sep.length * xs.length := by
  rw [intercalate_cons_eq]
  induction xs with
  | nil => simp
  | cons y ys ih =>
      simp only [List.map_cons, List.flatten_cons, List.length_append, List.sum_cons,
        List.length_cons] at ih ⊢
      rw [Nat.mul_succ]
      omega

theorem map_range_eq_map_finRange {β : Type} (n : Nat) (F : Nat → β) (f : Fin n → β)
    (h : ∀ i : Fin n, F i.val = f i) : (List.range n).map F = (List.finRange n).map f := by
  rw [← List.map_coe_finRange, List.map_map]
  exact List.map_congr_left (fun i _ => h i)

theorem writeFrom_eq (impls : Fin NUM_BUCKETS → Impl) (n i : Nat) :
    writeFrom impls n i =
      ((List.range' i n).map
        (fun k => if h : k < NUM_BUCKETS then (impls ⟨k, h⟩).write else [])).flatten := by
  induction n generalizing i with
  | zero => simp [writeFrom]
  | succ n ih => rw [writeFrom_succ, ih, List.range'_succ, List.map_cons, List.flatten_cons]

theorem writeTextFrom_eq (impls : Fin NUM_BUCKETS → Impl) (n i : Nat) (hi : i ≠ 0) :
    writeTextFrom impls n i =
      ((List.range' i n).map
        (fun k => [Tok.chr ','] ++
          (if h : k < NUM_BUCKETS then (impls ⟨k, h⟩).writeText else []))).flatten := by
  induction n generalizing i with
  | zero => simp [writeTextFrom]
  | succ n ih =>
      rw [writeTextFrom_succ, ih (i + 1) (by omega), List.range'_succ, List.map_cons,
        List.flatten_cons, if_pos hi]

/-- C14: for every table, the output of `writeText` is the list of the text encodings of the
shards 0 to 255, in index order, joined with one comma between two consecutive encodings:
256 encodings and 255 commas added, none before the first encoding and none after the last;
the output of `write` is the binary encodings of the shards 0 to 255, in index order, one
after the other. -/
theorem write_formats (t : TwoLevelHashTable) :
    t.writeText = List.intercalate [Tok.chr ',']
        ((List.finRange NUM_BUCKETS).map (fun i => (t.impls i).writeText)) ∧
      ((List.finRange NUM_BUCKETS).map (fun i => (t.impls i).writeText)).length = 256 ∧
      t.writeText.length =
        ((List.finRange NUM_BUCKETS).map (fun i => (t.impls i).writeText.length)).sum + 255 ∧
      t.write = ((List.finRange NUM_BUCKETS).map (fun i => (t.impls i).write)).flatten := by
  have hT : (List.finRange NUM_BUCKETS).map (fun i => (t.impls i).writeText) =
      (List.range NUM_BUCKETS).map
        (fun k => if h : k < NUM_BUCKETS then (t.impls ⟨k, h⟩).writeText else []) :=
    (map_range_eq_map_finRange NUM_BUCKETS _ _ (fun i => by simp)).symm
  have hB : (List.finRange NUM_BUCKETS).map (fun i => (t.impls i).write) =
      (List.range NUM_BUCKETS).map
        (fun k => if h : k < NUM_BUCKETS then (t.impls ⟨k, h⟩).write else []) :=
    (map_range_eq_map_finRange NUM_BUCKETS _ _ (fun i => by simp)).symm
  have hr : List.range NUM_BUCKETS = 0 :: List.range' 1 255 := by
    rw [List.range_eq_range']
    exact List.range'_succ 0 255 1
  have h1 : t.writeText = List.intercalate [Tok.chr ',']
      ((List.finRange NUM_BUCKETS).map (fun i => (t.impls i).writeText)) := by
    rw [hT, hr, List.map_cons, intercalate_cons_eq, List.map_map]
    show writeTextFrom t.impls (255 + 1) 0 = _
    rw [writeTextFrom_succ, writeTextFrom_eq t.impls 255 1 (by decide)]
    simp only [ne_eq, not_true_eq_false, if_false, List.nil_append]
    rfl
  refine ⟨h1, by simp, ?_, ?_⟩
  · rw [h1]
    have hfin : List.finRange NUM_BUCKETS =
        0 :: (List.finRange 255).map Fin.succ := List.finRange_succ 255
    rw [hfin, List.map_cons, length_intercalate_cons]
    simp [List.map_map, Function.comp_def]
  · rw [hB, List.range_eq_range']
    exact writeFrom_eq t.impls NUM_BUCKETS 0

end TwoLevelHashTable

/-! ## The counter after `read` -/

namespace TwoLevelHashTable

theorem singleKeyTable_keys_nodup (i : Fin NUM_BUCKETS) :
    (singleKeyTable.impls i).keys.Nodup := by
  show (Function.update default.impls 0 ⟨[⟨5, none⟩]⟩ i).keys.Nodup
  by_cases h0 : i = 0
  · subst h0
    decide
  · rw [Function.update_noteq h0]
    exact List.nodup_nil

/-- C11, at the table holding the key 5 alone, for which `size()` is 1: `read` on a
default-constructed table applied to the output of `write` yields the shards of the table
written, entry by entry, and a `size()` of 0. -/
theorem read_write_size_stale :
    singleKeyTable.size = 1 ∧
      default.read singleKeyTable.write = .ok (⟨0, singleKeyTable.impls⟩, []) ∧
      (⟨0, singleKeyTable.impls⟩ : TwoLevelHashTable).size = 0 ∧
      (⟨0, singleKeyTable.impls⟩ : TwoLevelHashTable).size ≠ singleKeyTable.size ∧
      ((⟨0, singleKeyTable.impls⟩ : TwoLevelHashTable).impls 0).cells = [⟨5, none⟩] :=
  ⟨rfl, read_write_shards singleKeyTable default
      (fun i s rest => Impl.read_own_encoding _ s rest (singleKeyTable_keys_nodup i)),
    rfl, by decide, by decide⟩

/-! ## Lookup of an absent key -/

/-- When the shard index of the key is below 256 and no shard holds the key, `find`
returns an iterator equal to `end()`. -/
theorem find_of_absent (H : Key → Nat) (t : TwoLevelHashTable) (k : Key)
    (hb : bucket (hash H k) < NUM_BUCKETS) (habs : ∀ i : Fin NUM_BUCKETS, k ∉ (t.impls i).keys) :
    ∃ it, t.find H k = some it ∧ it.eq t.end_ = true := by
  refine ⟨t.end_, find_of_not_contains H t k hb (fun hc => ?_), by simp [iterator.eq]⟩
  obtain ⟨h, hmem⟩ := hc
  exact habs _ hmem

/-- C15, at the table holding the keys 1 and 3, the key 7, which no shard holds, and a hash
function with the value `2 ^ 32` for 7: `find(7)` computes the shard index 256 and reads
`impls[256]`, so it has no defined result. -/
theorem find_absent_index_overflow :
    run (fun k => if k = 7 then 4294967296 else k * 16777216) [Op.emplace 1, Op.emplace 3]
        default = some twoKeyTable ∧
      (∀ i : Fin NUM_BUCKETS, 7 ∉ (twoKeyTable.impls i).keys) ∧
      bucket (hash (fun k => if k = 7 then 4294967296 else k * 16777216) 7) = 256 ∧
      (twoKeyTable.find (fun k => if k = 7 then 4294967296 else k * 16777216) 7).isNone =
        true := by
  refine ⟨rfl, ?_, by decide, by decide⟩
  intro i
  show 7 ∉ (Function.update (Function.update default.impls 1 ⟨[⟨1, none⟩]⟩) 3
    ⟨[⟨3, none⟩]⟩ i).keys
  by_cases h3 : i = 3
  · subst h3
    decide
  · rw [Function.update_noteq h3]
    by_cases h1 : i = 1
    · subst h1
      decide
    · rw [Function.update_noteq h1]
      simp [default, Impl.keys]

/-! ## The buffer size -/

theorem bufferSizeFrom_wrap (implBytes : Impl → Nat) (impls : Fin NUM_BUCKETS → Impl)
    (n i r : Nat) :
    bufferSizeFrom implBytes impls n i (wrapSize r) =
      wrapSize (r + ((List.range' i n).map
        (fun k => if h : k < NUM_BUCKETS then implBytes (impls ⟨k, h⟩) else 0)).sum) := by
  induction n generalizing i r with
  | zero => simp [bufferSizeFrom]
  | succ n ih =>
      have hw : ∀ a b : Nat, wrapSize (wrapSize a + b) = wrapSize (a + b) := by
        intro a b
        unfold wrapSize
        exact Nat.mod_add_mod a (2 ^ 64) b
      rw [bufferSizeFrom, hw, ih, List.range'_succ, List.map_cons, List.sum_cons, Nat.add_assoc]

/-- For every table `getBufferSizeInBytes()` returns, in 64 bits, the value the local `res`
happens to hold at its declaration plus the sum of the buffer sizes of the 256 shards. -/
theorem getBufferSizeInBytes_eq (implBytes : Impl → Nat) (res0 : Nat) (t : TwoLevelHashTable) :
    t.getBufferSizeInBytes implBytes res0 =
      wrapSize (res0 + ∑ i : Fin NUM_BUCKETS, implBytes (t.impls i)) := by
  have hsum : ∑ i : Fin NUM_BUCKETS, implBytes (t.impls i) =
      ((List.range NUM_BUCKETS).map
        (fun k => if h : k < NUM_BUCKETS then implBytes (t.impls ⟨k, h⟩) else 0)).sum := by
    rw [Fin.sum_univ_def, map_range_eq_map_finRange NUM_BUCKETS _
      (fun i => implBytes (t.impls i)) (fun i => by simp)]
  have hr : List.range NUM_BUCKETS = 0 :: List.range' 1 255 := by
    rw [List.range_eq_range']
    exact List.range'_succ 0 255 1
  rw [hsum, hr, List.map_cons, List.sum_cons]
  show bufferSizeFrom implBytes t.impls (255 + 1) 0 res0 = _
  rw [bufferSizeFrom, bufferSizeFrom_wrap, Nat.add_assoc]

set_option maxRecDepth 100000 in
/-- C16, at the default-constructed table with every shard reporting a buffer of 4096 bytes:
the sum over the shards is 1048576, and `getBufferSizeInBytes()` returns 1048583 when the
local `res` holds 7 at its declaration, 1048576 only when it holds 0. -/
theorem getBufferSizeInBytes_uninitialized :
    ∑ i : Fin NUM_BUCKETS, (fun _ : Impl => 4096) (default.impls i) = 1048576 ∧
      default.getBufferSizeInBytes (fun _ => 4096) 7 = 1048583 ∧
      default.getBufferSizeInBytes (fun _ => 4096) 0 = 1048576 ∧
      default.getBufferSizeInBytes (fun _ => 4096) 7 ≠
        ∑ i : Fin NUM_BUCKETS, (fun _ : Impl => 4096) (default.impls i) := by
  have hs : ∑ i : Fin NUM_BUCKETS, (fun _ : Impl => 4096) (default.impls i) = 1048576 := by
    simp only [Finset.sum_const, Finset.card_univ, Fintype.card_fin, smul_eq_mul]
    rfl
  refine ⟨hs, ?_, ?_, ?_⟩
  · rw [getBufferSizeInBytes_eq, hs]
    decide
  · rw [getBufferSizeInBytes_eq, hs]
    decide
  · rw [getBufferSizeInBytes_eq, hs]
    decide

end TwoLevelHashTable

/-! ## The shards an insertion touches -/

namespace TwoLevelHashTable

/-- A defined call of `emplace(x, it, inserted, hash_value)` leaves every shard other than
the shard `bucket(hash_value)` as it was. -/
theorem emplaceWithHash_frame (t t' : TwoLevelHashTable) (x : Key) (hv : Nat) (it : iterator)
    (ins : Bool) (h : t.emplaceWithHash x hv = some (t', it, ins)) (i : Fin NUM_BUCKETS)
    (hi : i.val ≠ bucket hv) : t'.impls i = t.impls i := by
  obtain ⟨hb, himpls, -, -, -⟩ := emplaceWithHash_inv t t' x hv it ins h
  rw [himpls]
  exact Function.update_noteq (fun e => hi (congrArg Fin.val e)) _ _

/-- C17, at the table holding the keys 1 and 3, the key 9 and the hash value `2 ^ 40`:
`bucket` yields 65536, so `emplace(9, it, inserted, 2 ^ 40)`, and `insert` and `emplace(9)`
under a hash function with that value, address `impls[65536]`, which is none of the 256
shards, and have no defined result. -/
theorem emplace_addresses_no_shard :
    (1099511627776 : Nat) < 2 ^ 64 ∧ bucket 1099511627776 = 65536 ∧
      ¬ bucket 1099511627776 < NUM_BUCKETS ∧
      (twoKeyTable.emplaceWithHash 9 1099511627776).isNone = true ∧
      (twoKeyTable.emplace (fun _ => 1099511627776) 9).isNone = true ∧
      (twoKeyTable.insert (fun _ => 1099511627776) (9, 0)).isNone = true := by
  decide

/-! ## The entry an insertion leaves -/

/-- For every value `x` a call of `insert(x)` that reports `inserted = true` leaves, under
the iterator it returns, a cell with the key of `x` whose mapped value was not constructed. -/
theorem insert_leaves_mapped_unset (H : Key → Nat) (t t' : TwoLevelHashTable) (x : value_type)
    (it : iterator) (h : t.insert H x = some (t', it, true)) :
    deref t' it = some ⟨x.1, none⟩ := by
  have h' : t.emplaceWithHash x.1 (hash H x.1) = some (t', it, true) := h
  obtain ⟨hb, himpls, -, hit, hins⟩ := emplaceWithHash_inv t t' _ _ it true h'
  have hnot : x.1 ∉ (t.impls ⟨bucket (hash H x.1), hb⟩).keys :=
    (Impl.emplace_inserted_iff _ _).1 hins.symm
  rw [Impl.emplace_of_not_mem _ _ hnot] at himpls hit
  rw [hit]
  simp only [deref, hb, dite_true, himpls, Function.update_same]
  simp

/-- C18, at the default-constructed table, the identity hash and the value `(5, 7)`:
`insert` reports `inserted = true`, and the entry under the iterator it returns, and under
the iterator of a later `find(5)`, has the key 5 and no mapped value constructed, not the
mapped value 7. -/
theorem insert_drops_mapped_value :
    ∃ t' it, default.insert (fun k => k) (5, 7) = some (t', it, true) ∧
      deref t' it = some ⟨5, none⟩ ∧ deref t' it ≠ some ⟨5, some 7⟩ ∧
      (t'.find (fun k => k) 5).bind (deref t') = some ⟨5, none⟩ ∧
      (t'.find (fun k => k) 5).bind (deref t') ≠ some ⟨5, some 7⟩ :=
  ⟨_, _, rfl, by decide⟩

/-! ## The scan for the next shard -/

theorem scanBuckets_fuel (impls : Fin NUM_BUCKETS → Impl) (fuel b : Nat) (hb : b < 256)
    (hf : 256 - b ≤ fuel) : scanBuckets impls fuel b = scanBuckets impls (256 - b) b := by
  induction fuel generalizing b with
  | zero => omega
  | succ fuel ih =>
      have hw : wrapSize (b + 1) = b + 1 := Nat.mod_eq_of_lt (by omega)
      have h1 : 256 - b = (255 - b) + 1 := by omega
      rw [h1, scanBuckets, scanBuckets]
      simp only [hw]
      by_cases h256 : b + 1 = 256
      · rw [if_pos h256, if_pos h256]
      · have hlt : b + 1 < NUM_BUCKETS := show b + 1 < 256 by omega
        rw [if_neg h256, if_neg h256, dif_pos hlt, dif_pos hlt]
        cases (impls ⟨b + 1, hlt⟩).empty
        · simp only [Bool.not_false, if_true]
          rw [ih (b + 1) hlt (by omega)]
          congr 1
          omega
        · simp

/-- For every table and every starting index `b < 256` the loop of
`beginOfNextNonEmptyBucket` ends within `256 - b` rounds with an index `r` in `(b, 256]`,
without reading a shard outside `impls`; the function returns the end position of shard 255
when `r` is 256 and otherwise the begin position of shard `r`, which is empty. -/
theorem beginOfNextNonEmptyBucket_spec (impls : Fin NUM_BUCKETS → Impl) (b : Nat)
    (hb : b < 256) :
    ∃ r, scanBuckets impls (256 - b) b = some r ∧ b < r ∧ r ≤ 256 ∧
      (r = 256 → beginOfNextNonEmptyBucket impls b =
        some (implEnd impls ⟨NUM_BUCKETS - 1, by decide⟩, r)) ∧
      ∀ h : r < NUM_BUCKETS, (impls ⟨r, h⟩).empty = true ∧
        beginOfNextNonEmptyBucket impls b = some (implBegin impls ⟨r, h⟩, r) := by
  obtain ⟨r, hr, h1, h2, h3, -⟩ := scanBuckets_spec impls (256 - b) b hb (Nat.le_refl _)
  have hfull : scanBuckets impls (NUM_BUCKETS + 1) b = some r := by
    rw [scanBuckets_fuel impls (NUM_BUCKETS + 1) b hb (show 256 - b ≤ 256 + 1 by omega), hr]
  refine ⟨r, hr, h1, h2, ?_, ?_⟩
  · intro h256
    simp [beginOfNextNonEmptyBucket, hfull, h256]
  · intro h
    have hne : r ≠ 256 := fun e => by
      have : r < 256 := h
      omega
    refine ⟨h3 h, ?_⟩
    simp [beginOfNextNonEmptyBucket, hfull, hne, h]

/-- C19, at the starting index 254 in the table holding the key 254 alone, in shard 254: the
loop makes one increment and leaves the index 255, shard 255 being empty, and the position
returned, the begin of shard 255, is the end position of shard 255 although the index is not
256; the same at the default-constructed table. The operator `++` of the iterator at the
key 254 reaches this call. -/
theorem scan_returns_end_at_index_255 :
    ∃ t, run (fun k => k * 16777216) [Op.emplace 254] default = some t ∧
      beginOfNextNonEmptyBucket t.impls 254 =
        some (implEnd t.impls ⟨NUM_BUCKETS - 1, by decide⟩, 255) ∧
      t.find (fun k => k * 16777216) 254 = some ⟨254, ⟨254, 0⟩⟩ ∧
      iterator.next t ⟨254, ⟨254, 0⟩⟩ =
        some ⟨255, implEnd t.impls ⟨NUM_BUCKETS - 1, by decide⟩⟩ ∧
      beginOfNextNonEmptyBucket default.impls 254 =
        some (implEnd default.impls ⟨NUM_BUCKETS - 1, by decide⟩, 255) ∧
      (255 : Nat) ≠ 256 :=
  ⟨_, rfl, by decide⟩

end TwoLevelHashTable
